import Mathlib

/-!
Shallow embedding of the error-aggregation core of WorkflowWebTools
(`globalerrors.py`), together with proofs about its step-table
densification, pivot slice ordering, regrouping, refresh lifecycle,
dimension-index sorting and workflow listing.

The record store is modelled as a list of rows of the `workflows` table.
SQL scans ordered by `errorcode ASC, sitename ASC` are modelled as stable
insertion sorts by the numeric-aware code order (the `errorcode` column
has integer affinity, so integer-parsing codes sort numerically and other
codes sort after them, lexicographically), matching the dimension-index
order produced by `set_all_lists` with the `safe_int` sort key.
-/

/-- One row of the `workflows` table: a step name, a site name, an error
code (a string that is usually numeric), the number of errors and the
site-readiness status attached at load time. -/
structure Record where
  stepname : String
  sitename : String
  errorcode : String
  numbererrors : Nat
  sitereadiness : String
deriving DecidableEq, Repr

/-- Byte-wise lexicographic comparison of character lists, the order SQL
and Python use on plain (ASCII) strings. -/
def lexLe : List Char → List Char → Bool
  | [], _ => true
  | _ :: _, [] => false
  | a :: as, b :: bs => if a = b then lexLe as bs else decide (a < b)

/-- Lexicographic string comparison over the underlying characters. -/
def strLe (a b : String) : Bool := lexLe a.data b.data

/-- Numeric value of a list of decimal digits. -/
def digitsToNat (l : List Char) : Nat := l.foldl (fun acc c => acc * 10 + (c.toNat - 48)) 0

/-- Integer parse of a character list: an optional sign followed by a
nonempty run of decimal digits, as accepted by Python `int`. -/
def parseIntChars : List Char → Option Int
  | [] => none
  | '-' :: rest =>
    if rest ≠ [] ∧ rest.all (fun c => c.isDigit) then some (-(digitsToNat rest : Int)) else none
  | l => if l.all (fun c => c.isDigit) then some ((digitsToNat l : Int)) else none

/-- `safe_int` from `ErrorInfo.set_all_lists`: the sort key that returns
the string as an integer when it parses, and the string itself otherwise.
We only ever compare keys, so the key is the optional integer; `none`
stands for "left as a string". -/
def safe_int (element : String) : Option Int := parseIntChars element.data

/-- The total order on error codes induced by sorting with the `safe_int`
key: integer-parsing codes by integer value, non-parsing codes after every
integer (Python 2 orders numbers before strings), non-parsing codes
between themselves lexicographically. -/
def codeLe (a b : String) : Bool :=
  match safe_int a, safe_int b with
  | some x, some y => decide (x ≤ y)
  | some _, none => true
  | none, some _ => false
  | none, none => strLe a b

/-- Strict part of `codeLe`. -/
def codeLt (a b : String) : Bool := codeLe a b && !codeLe b a

/-- Equivalence part of `codeLe` (equal integer keys, or equal strings). -/
def codeEqv (a b : String) : Bool := codeLe a b && codeLe b a

/-- Stable insertion of one element into a list, placing it before the
first element it compares `le` to; the insertion step of a stable sort. -/
def insertLe (le : α → α → Bool) (a : α) : List α → List α
  | [] => [a]
  | b :: l => if le a b then a :: b :: l else b :: insertLe le a l

/-- Stable insertion sort by the boolean comparison `le`; models both
Python's stable `list.sort` and deterministic SQL `ORDER BY` scans. -/
def sortLe (le : α → α → Bool) : List α → List α
  | [] => []
  | a :: l => insertLe le a (sortLe le l)

/-- First-occurrence deduplication with an accumulator of already seen
values; models iterating over distinct values of a column. -/
def firstDedupAux [DecidableEq α] (seen : List α) : List α → List α
  | [] => []
  | v :: l => if v ∈ seen then firstDedupAux seen l else v :: firstDedupAux (v :: seen) l

/-- First-occurrence deduplication; models `SELECT DISTINCT`. -/
def distinctVals [DecidableEq α] (l : List α) : List α := firstDedupAux [] l

/-- The sorted distinct step names, as built by `set_all_lists`
(`allsteps.sort()`). -/
def allsteps (store : List Record) : List String :=
  sortLe strLe (distinctVals (store.map (fun r => r.stepname)))

/-- The sorted distinct site names, as built by `set_all_lists`
(`allsites.sort()`). -/
def allsites (store : List Record) : List String :=
  sortLe strLe (distinctVals (store.map (fun r => r.sitename)))

/-- The distinct error codes sorted with the `safe_int` key, as built by
`set_all_lists` (`allerrors.sort(key=safe_int)`). -/
def allerrors (store : List Record) : List String :=
  sortLe codeLe (distinctVals (store.map (fun r => r.errorcode)))

/-- Comparison realising `ORDER BY errorcode ASC, sitename ASC` on the
store: numeric-aware on the integer-affinity `errorcode` column, then
lexicographic on `sitename`. -/
def scanLe (r1 r2 : Record) : Bool :=
  codeLt r1.errorcode r2.errorcode ||
    (codeEqv r1.errorcode r2.errorcode && strLe r1.sitename r2.sitename)

/-- The full-table scan ordered by `(errorcode, sitename)`, used by
`ErrorInfo._get_step_tables`. -/
def sortedScan (store : List Record) : List Record := sortLe scanLe store

/-- A sparse step-table entry `(numbererrors, sitename, errorcode)`, the
tuple shape appended by `_get_step_tables`. -/
abbrev SparseEntry := Nat × String × String

/-- The tuple a scanned row contributes to the step tables. -/
def scanRow (r : Record) : SparseEntry := (r.numbererrors, r.sitename, r.errorcode)

/-- One bucket of `ErrorInfo._step_tables`: for a step name and a key
(either the literal key `"all"` or a readiness status), the entries
appended while walking the ordered scan.  Each row is appended to the
`"all"` bucket of its step and to the bucket of its readiness. -/
def stepTablesBucket (store : List Record) (step key : String) : List SparseEntry :=
  (sortedScan store).flatMap (fun r =>
    if r.stepname = step then
      (if key = "all" then [scanRow r] else []) ++
        (if r.sitereadiness = key then [scanRow r] else [])
    else [])

/-- `ErrorInfo.get_step_table`: the sparse list for one step, either the
`"all"` bucket when no (or an empty, hence falsy) readiness filter is
given, or the concatenation of the buckets of the requested statuses. -/
def ErrorInfo_get_step_table (store : List Record) (step : String)
    (readymatch : Option (List String)) : List SparseEntry :=
  let keys := match readymatch with
    | none => ["all"]
    | some [] => ["all"]
    | some ks => ks
  keys.flatMap (fun key => stepTablesBucket store step key)

/-- `contents.pop(0) if contents else (0, '', '')`: take the next sparse
entry, or the sentinel once the list is exhausted. -/
def popHead : List SparseEntry → SparseEntry × List SparseEntry
  | [] => ((0, "", ""), [])
  | e :: es => (e, es)

/-- One cell of the densification merge: emit the current entry's count
and advance exactly when the cell coordinates equal the entry's
`(errorcode, sitename)`, else emit zero and hold the cursor. -/
def mergeCell (error site : String) (st : SparseEntry × List SparseEntry) :
    Nat × (SparseEntry × List SparseEntry) :=
  if error = st.1.2.2 ∧ site = st.1.2.1 then (st.1.1, popHead st.2) else (0, st)

/-- One dense row of the merge: the inner loop over all sites for a fixed
error code. -/
def mergeRow (error : String) : List String → SparseEntry × List SparseEntry →
    List Nat × (SparseEntry × List SparseEntry)
  | [], st => ([], st)
  | site :: sites, st =>
    ((mergeCell error site st).1 :: (mergeRow error sites (mergeCell error site st).2).1,
      (mergeRow error sites (mergeCell error site st).2).2)

/-- The outer loop of the merge: one dense row per error code. -/
def mergeTable (codes sites : List String) (st : SparseEntry × List SparseEntry) :
    List (List Nat) × (SparseEntry × List SparseEntry) :=
  match codes with
  | [] => ([], st)
  | c :: cs =>
    ((mergeRow c sites st).1 :: (mergeTable cs sites (mergeRow c sites st).2).1,
      (mergeTable cs sites (mergeRow c sites st).2).2)

/-- Module-level `get_step_table(step, ..., readymatch, sparse=False)`:
densify the cached sparse list for the step against the dimension index
lists `codes` (rows) and `sites` (columns) by a single merge pass. -/
def get_step_table (store : List Record) (codes sites : List String) (step : String)
    (readymatch : Option (List String)) : List (List Nat) :=
  let contents := ErrorInfo_get_step_table store step readymatch
  (mergeTable codes sites (popHead contents)).1

/-- Sum of all cells of a dense table. -/
def sumTable (t : List (List Nat)) : Nat := (t.map (fun row => row.sum)).sum

/-- Whether a record passes a readiness filter: no filter (or the falsy
empty filter) accepts everything, otherwise the readiness must be one of
the requested statuses. -/
def matchesReady (readymatch : Option (List String)) (r : Record) : Bool :=
  match readymatch with
  | none => true
  | some [] => true
  | some ks => decide (r.sitereadiness ∈ ks)

/-- The `pievarmap` dictionary of `get_row_col_names`. -/
def pievarmapLookup (p : String) : Option (String × String) :=
  if p = "errorcode" then some ("stepname", "sitename")
  else if p = "sitename" then some ("stepname", "errorcode")
  else if p = "stepname" then some ("errorcode", "sitename")
  else none

/-- `get_row_col_names`: the row and column dimensions for a pivot
variable, falling back to `"errorcode"` when the variable is unknown. -/
def get_row_col_names (pievar : String) : String × String :=
  (pievarmapLookup (if (pievarmapLookup pievar).isSome then pievar else "errorcode")).getD
    ("", "")

/-- Reading one of the three dimension columns off a record by its column
name.  Only the three known names reach this in the source; the fallback
mirrors the `"errorcode"` default the pivot machinery applies. -/
def fieldOf (name : String) (r : Record) : String :=
  if name = "stepname" then r.stepname
  else if name = "sitename" then r.sitename
  else r.errorcode

/-- `ErrorInfo.get_allmap()[name]`: the dimension-index list for a column
name. -/
def allmapOf (store : List Record) (name : String) : List String :=
  if name = "errorcode" then allerrors store
  else if name = "stepname" then allsteps store
  else allsites store

/-- The value `piemap.get(v, 0)` ends up with in
`get_errors_and_pietitles`: `list_matching_pievars` scans the rows
matching the cell's row and column values (no `ORDER BY`, modelled in
store order) and each match assigns `piemap[piekey] = errnum`, so the last
matching row with pie value `v` wins and a missing key yields zero. -/
def piemapGet (store : List Record) (pievar row col v : String) : Nat :=
  let rowname := (get_row_col_names pievar).1
  let colname := (get_row_col_names pievar).2
  match (store.filter (fun r =>
      fieldOf rowname r = row ∧ fieldOf colname r = col ∧ fieldOf pievar r = v)).getLast? with
  | some r => r.numbererrors
  | none => 0

/-- One cell's pie slice list before sorting:
`[piemap.get(value, 0) for value in allmap[pievar]]`. -/
def cellSlices (store : List Record) (pievar row col : String) : List Nat :=
  (allmapOf store pievar).map (fun v => piemapGet store pievar row col v)

/-- `pieinfo`: the flat list of per-cell slice lists, appended row by row
and column by column over the dimension-index cross product. -/
def pieinfo (store : List Record) (pievar : String) : List (List Nat) :=
  (allmapOf store (get_row_col_names pievar).1).flatMap (fun row =>
    (allmapOf store (get_row_col_names pievar).2).map (fun col =>
      cellSlices store pievar row col))

/-- Python `enumerate`, starting at index `i`. -/
def pyEnumFrom (i : Nat) : List α → List (Nat × α)
  | [] => []
  | a :: l => (i, a) :: pyEnumFrom (i + 1) l

/-- Python `enumerate` of a list. -/
def pyEnum (l : List α) : List (Nat × α) := pyEnumFrom 0 l

/-- One step of the `sum_list` accumulation:
`[value + cell[index] for index, value in enumerate(sum_list)]`. -/
def addCell (acc cell : List Nat) : List Nat :=
  (pyEnum acc).map (fun iv => iv.2 + cell.getD iv.1 0)

/-- `sum_list`: the grand total of every pie value summed over all cells,
starting from `[0] * len(allmap[pievar])`. -/
def sum_list (store : List Record) (pievar : String) : List Nat :=
  (pieinfo store pievar).foldl addCell
    (List.replicate (allmapOf store pievar).length 0)

/-- The comparison used by
`sorted(enumerate(sum_list), key=(lambda x: x[1]), reverse=True)`:
descending in the summed value; the sort being stable, ties keep the
enumeration (dimension-index) order. -/
def descSnd (a b : Nat × Nat) : Bool := decide (b.2 ≤ a.2)

/-- The sorted enumeration of `sum_list` that fixes the slice order. -/
def sorted_enum (store : List Record) (pievar : String) : List (Nat × Nat) :=
  sortLe descSnd (pyEnum (sum_list store pievar))

/-- The single index permutation applied to every cell. -/
def slice_order (store : List Record) (pievar : String) : List Nat :=
  (sorted_enum store pievar).map (fun iv => iv.1)

/-- `sorted_pieinfo`: every cell reindexed by the one global ordering,
`[info[index] for index, _ in sorted(...)]`. -/
def sorted_pieinfo (store : List Record) (pievar : String) : List (List Nat) :=
  (pieinfo store pievar).map (fun info =>
    (slice_order store pievar).map (fun i => info.getD i 0))

/-- The state of one `ErrorInfo` handle, as far as the refresh lifecycle
is concerned: the load timestamp, the record store behind the sqlite
connection (`none` once the connection is closed), the three
dimension-index lists of `self.info`, and the presence flags of the
derived caches (`_step_tables`, `_step_list`, `clusters`).  The
per-session metadata caches are irrelevant to the lifecycle claims and
omitted. -/
structure Handle where
  timestamp : Nat
  store : Option (List Record)
  info_steps : List String
  info_errors : List String
  info_sites : List String
  step_tables : Bool
  step_list : Bool
  clusters : Bool
deriving DecidableEq, Repr

/-- `ErrorInfo.teardown`: drop the derived caches and close the
connection. -/
def teardown (h : Handle) : Handle :=
  { h with store := none, step_tables := false, step_list := false, clusters := false }

/-- `ErrorInfo.setup`, with the fallible data load passed explicitly: the
timestamp is taken first and a fresh in-memory database is connected;
loading the data into it either succeeds (and `set_all_lists` then
rebuilds the dimension index from the new store) or raises, which leaves
the freshly connected empty store behind and propagates the failure
(second component `true`). -/
def setup (h : Handle) (now : Nat) (load : Except Unit (List Record)) : Handle × Bool :=
  match load with
  | Except.error _ => ({ h with timestamp := now, store := some [] }, true)
  | Except.ok recs =>
    ({ h with timestamp := now, store := some recs,
              info_steps := allsteps recs, info_errors := allerrors recs,
              info_sites := allsites recs }, false)

/-- The refresh step of `check_session` on an already loaded handle: when
the caller allows refreshing and the load timestamp is older than
`60*30` seconds, tear the handle down and set it up again; otherwise the
handle is returned untouched.  The second component records whether a
load failure escaped to the caller. -/
def check_session (h : Handle) (now : Nat) (can_refresh : Bool)
    (load : Except Unit (List Record)) : Handle × Bool :=
  if can_refresh ∧ h.timestamp < now - 60 * 30 then setup (teardown h) now load
  else (h, false)

/-- One value of the nested errors mapping consumed by `group_errors`:
the two-level `errors` counts and the running `total` (the retained
`sub` entries do not feed the sums). -/
structure ErrEntry where
  errors : List (String × List (String × Nat))
  total : Nat
deriving DecidableEq, Repr

/-- The part of a `group_errors` output the summing claims are about: the
accumulated three-level error counts and the per-group totals, read as
total functions (a missing key of the defaultdict reads as zero). -/
structure GroupedOut where
  errors : String → String → String → Nat
  total : String → Nat

/-- `output[group]['errors'][row][col] += numerrors` on the accumulated
counts. -/
def bumpErr (f : String → String → String → Nat) (g row col : String) (n : Nat) :
    String → String → String → Nat :=
  fun g' r' c' => if g' = g ∧ r' = row ∧ c' = col then f g' r' c' + n else f g' r' c'

/-- The inner loop of `group_errors` over one row of an entry's nested
counts. -/
def addRowErrs (g row : String) (f : String → String → String → Nat)
    (cols : List (String × Nat)) : String → String → String → Nat :=
  cols.foldl (fun f cn => bumpErr f g row cn.1 cn.2) f

/-- The loop of `group_errors` over all rows of one entry's nested
counts. -/
def addEntryErrs (g : String) (f : String → String → String → Nat)
    (errs : List (String × List (String × Nat))) : String → String → String → Nat :=
  errs.foldl (fun f rv => addRowErrs g rv.1 f rv.2) f

/-- `group_errors(input_errors, grouping_function)` restricted to the
summed fields: fold the input entries (a dict, modelled as its item list)
into per-group element-wise error sums and totals. -/
def group_errors (input : List (String × ErrEntry)) (gf : String → String) : GroupedOut :=
  input.foldl
    (fun out kv =>
      { errors := addEntryErrs (gf kv.1) out.errors kv.2.errors,
        total := fun g' => if g' = gf kv.1 then out.total g' + kv.2.total else out.total g' })
    { errors := fun _ _ _ => 0, total := fun _ => 0 }

/-- Python `str.split` on a single separator character, over the
character list. -/
def splitChar (c : Char) : List Char → List (List Char)
  | [] => [[]]
  | x :: xs =>
    let r := splitChar c xs
    if x = c then [] :: r
    else match r with
      | [] => [[x]]
      | y :: ys => (x :: y) :: ys

/-- `step.split('/')[1]`: the second path segment of a step name (the
workflow identifier).  Python raises on a name without a `'/'`; the model
returns the empty string there, and the theorems exclude that case. -/
def stepSeg (s : String) : String :=
  match splitChar '/' s.data with
  | _ :: seg :: _ => String.mk seg
  | _ => ""

/-- The loop of `ErrorInfo.return_workflows`: walk the step names,
appending each second segment that differs from the previously appended
one (`last` starts as the empty string). -/
def return_loop (last : String) : List String → List String
  | [] => []
  | step :: rest =>
    let val := stepSeg step
    if val = last then return_loop last rest else val :: return_loop val rest

/-- `ErrorInfo.return_workflows`: the workflow identifiers derived from
`self.allsteps`. -/
def return_workflows (steps : List String) : List String := return_loop "" steps

/-- Consecutive deduplication with an initial previous value; the shape
of the `return_workflows` loop on the already computed segments. -/
def dedupFrom (last : String) : List String → List String
  | [] => []
  | v :: l => if v = last then dedupFrom last l else v :: dedupFrom v l

/-- Equal values occur only consecutively: every value that reappears
later in the tail does so immediately at its head.  Lexicographically
sorted step names of the `/workflow/task` shape produce segment lists of
this form. -/
def ChunkedB : List String → Bool
  | [] => true
  | v :: l => ChunkedB l && (decide (v ∉ l) || l.head? == some v)

/-- The record fields selected by `get_errors(pievar)`:
`(row, col, pie)` values of one row for the `SELECT` of
`numbererrors, rowname, colname, pievar`. -/
def rcpOf (pievar : String) (r : Record) : String × String × String :=
  (fieldOf (get_row_col_names pievar).1 r,
    fieldOf (get_row_col_names pievar).2 r,
    fieldOf pievar r)

/-- Per-column comparison for an `ORDER BY` component: numeric-aware on
the integer-affinity `errorcode` column, lexicographic otherwise. -/
def colLe (name : String) (a b : String) : Bool :=
  if name = "errorcode" then codeLe a b else strLe a b

/-- Strict part of `colLe`. -/
def colLt (name : String) (a b : String) : Bool := colLe name a b && !colLe name b a

/-- `ORDER BY rowname ASC, colname ASC, pievar ASC` of `get_errors` as a
lexicographic comparison of the selected triples. -/
def rcpLe (pievar : String) (r1 r2 : Record) : Bool :=
  let rn := (get_row_col_names pievar).1
  let cn := (get_row_col_names pievar).2
  let (a1, b1, c1) := rcpOf pievar r1
  let (a2, b2, c2) := rcpOf pievar r2
  colLt rn a1 a2 ||
    (a1 = a2 && (colLt cn b1 b2 || (b1 = b2 && colLe pievar c1 c2)))

/-- The ordered scan `get_errors` iterates over. -/
def sortedContents (store : List Record) (pievar : String) : List Record :=
  sortLe (rcpLe pievar) store

/-- `output[row]['total']` after the `get_errors` loop: every scanned row
with this row value adds its count. -/
def ge_total (store : List Record) (pievar row : String) : Nat :=
  (((sortedContents store pievar).filter (fun r => (rcpOf pievar r).1 = row)).map
    (fun r => r.numbererrors)).sum

/-- `output[row]['errors'][col][pvar]` after the `get_errors` loop: each
matching scanned row assigns its count, so the last one wins and a
missing key reads zero. -/
def ge_errors (store : List Record) (pievar row col pvar : String) : Nat :=
  match ((sortedContents store pievar).filter
      (fun r => rcpOf pievar r = (row, col, pvar))).getLast? with
  | some r => r.numbererrors
  | none => 0

/-- The `(stepname, sitename, errorcode)` classification triple of a
record, unique within one store by the store invariant. -/
def tripleOf (r : Record) : String × String × String :=
  (r.stepname, r.sitename, r.errorcode)

/-- The column-value/pie-value pairs appearing in one row entry of the
`get_errors` output, i.e. the keys of its nested dicts, in insertion
order. -/
def ge_keyPairs (store : List Record) (pievar row : String) : List (String × String) :=
  ((sortedContents store pievar).filter (fun r => (rcpOf pievar r).1 = row)).map
    (fun r => ((rcpOf pievar r).2.1, (rcpOf pievar r).2.2))

/-- Strict part of `strLe`. -/
def strLt (a b : String) : Bool := strLe a b && !strLe b a

/-- Strict grid order on sparse entries: by error code (numeric-aware) and
then by site name. -/
def entryLt (e1 e2 : SparseEntry) : Prop :=
  codeLt e1.2.2 e2.2.2 = true ∨ (e1.2.2 = e2.2.2 ∧ strLt e1.2.1 e2.2.1 = true)

/-- The dense grid flattened to the cell traversal order of the merge:
outer loop over error codes, inner loop over sites. -/
def gridCells (codes sites : List String) : List (String × String) :=
  codes.flatMap (fun c => sites.map (fun s => (c, s)))

/-- The merge walked over a flat cell list instead of nested loops; the
table shape is irrelevant to the cell values and the cursor motion. -/
def mergeFlat : List (String × String) → SparseEntry × List SparseEntry →
    List Nat × (SparseEntry × List SparseEntry)
  | [], st => ([], st)
  | cell :: cells, st =>
    ((mergeCell cell.1 cell.2 st).1 :: (mergeFlat cells (mergeCell cell.1 cell.2 st).2).1,
      (mergeFlat cells (mergeCell cell.1 cell.2 st).2).2)

/-- The sparse entries are matched one after the other along the cell
walk: each entry's `(errorcode, sitename)` coordinates name a later cell,
and cells in between match no pending entry. -/
inductive Covers : List (String × String) → List SparseEntry → Prop where
  | nil (cells : List (String × String)) : Covers cells []
  | skip (c : String × String) (cells : List (String × String)) (e : SparseEntry)
      (es : List SparseEntry) : c ≠ (e.2.2, e.2.1) → Covers cells (e :: es) →
      Covers (c :: cells) (e :: es)
  | hit (cells : List (String × String)) (e : SparseEntry) (es : List SparseEntry) :
      Covers cells es → Covers ((e.2.2, e.2.1) :: cells) (e :: es)

/-- The store invariant: every `(stepname, sitename, errorcode)` triple
occurs at most once. -/
def TriplesNodup (store : List Record) : Prop := (store.map tripleOf).Nodup

/-- No two distinct error codes of the store share a `safe_int` sort key
(e.g. no `"01"` next to `"1"`), so the code order separates the store's
codes. -/
def KeyInj (store : List Record) : Prop :=
  ∀ r1 ∈ store, ∀ r2 ∈ store,
    codeEqv r1.errorcode r2.errorcode = true → r1.errorcode = r2.errorcode

/-- Stable-descending order on enumerated totals: strictly larger total
first, ties by enumeration index. -/
def descRel (a b : Nat × Nat) : Prop := b.2 < a.2 ∨ (a.2 = b.2 ∧ a.1 < b.1)

/-- Element-wise read of one input entry's nested counts: the total its
`errors` dict contributes at a row/column pair (keys may repeat in the
list model; a dict has each at most once). -/
def entryErrAt (errs : List (String × List (String × Nat))) (r c : String) : Nat :=
  (errs.map (fun rv =>
    if r = rv.1 then (rv.2.map (fun cn => if c = cn.1 then cn.2 else 0)).sum else 0)).sum

theorem insertLe_perm (le : α → α → Bool) (a : α) (l : List α) :
    (insertLe le a l).Perm (a :: l) := by
  induction l with
  | nil => simp [insertLe]
  | cons b l ih =>
    simp only [insertLe]
    by_cases h : le a b
    · simp [h]
    · simp only [h, if_neg, Bool.false_eq_true, not_false_eq_true]
      exact (ih.cons b).trans (List.Perm.swap a b l)

theorem sortLe_perm (le : α → α → Bool) (l : List α) : (sortLe le l).Perm l := by
  induction l with
  | nil => simp [sortLe]
  | cons a l ih => exact (insertLe_perm le a (sortLe le l)).trans (ih.cons a)

theorem mem_insertLe (le : α → α → Bool) (a x : α) (l : List α) :
    x ∈ insertLe le a l ↔ x = a ∨ x ∈ l := by
  rw [(insertLe_perm le a l).mem_iff, List.mem_cons]

theorem pairwise_insertLe (le : α → α → Bool)
    (htot : ∀ a b, le a b = true ∨ le b a = true)
    (htr : ∀ a b c, le a b = true → le b c = true → le a c = true)
    (a : α) (l : List α) (h : l.Pairwise (fun x y => le x y = true)) :
    (insertLe le a l).Pairwise (fun x y => le x y = true) := by
  induction l with
  | nil => simp [insertLe]
  | cons b l ih =>
    rw [List.pairwise_cons] at h
    obtain ⟨hb, hl⟩ := h
    simp only [insertLe]
    by_cases hab : le a b = true
    · rw [if_pos hab]
      refine List.Pairwise.cons ?_ (List.Pairwise.cons hb hl)
      intro y hy
      rcases List.mem_cons.mp hy with rfl | hy
      · exact hab
      · exact htr a b y hab (hb y hy)
    · rw [if_neg hab]
      refine List.Pairwise.cons ?_ (ih hl)
      intro y hy
      rcases (mem_insertLe le a y l).mp hy with hya | hy
      · subst hya
        rcases htot y b with h' | h'
        · exact absurd h' hab
        · exact h'
      · exact hb y hy

theorem pairwise_sortLe (le : α → α → Bool)
    (htot : ∀ a b, le a b = true ∨ le b a = true)
    (htr : ∀ a b c, le a b = true → le b c = true → le a c = true)
    (l : List α) : (sortLe le l).Pairwise (fun x y => le x y = true) := by
  induction l with
  | nil => simp [sortLe]
  | cons a l ih => exact pairwise_insertLe le htot htr a (sortLe le l) ih

/-- Claim C2: for a store with exactly the records
`(stepA, site1, "8020", 3)`, `(stepA, site2, "8020", 1)` and
`(stepA, site1, "99", 2)` and the dimension index
`error_codes = ["99", "8020"]`, `sites = ["site1", "site2"]`, the dense
table of `get_step_table("stepA")` is `[[2, 0], [3, 1]]`. -/
theorem C2_step_table_scenario :
    get_step_table
      [⟨"stepA", "site1", "8020", 3, "enabled"⟩,
        ⟨"stepA", "site2", "8020", 1, "enabled"⟩,
        ⟨"stepA", "site1", "99", 2, "enabled"⟩]
      ["99", "8020"] ["site1", "site2"] "stepA" none = [[2, 0], [3, 1]] := by decide

/-- Claim C8: every pivot variable outside the known set behaves exactly
as `"errorcode"` in `get_row_col_names`: it yields
`("stepname", "sitename")`, the same pair as `"errorcode"`, and the
lookup is total (corrected, not rejected). -/
theorem C8_unknown_pievar_defaults (pievar : String)
    (h1 : pievar ≠ "errorcode") (h2 : pievar ≠ "sitename") (h3 : pievar ≠ "stepname") :
    get_row_col_names pievar = ("stepname", "sitename") ∧
      get_row_col_names pievar = get_row_col_names "errorcode" := by
  constructor <;> simp [get_row_col_names, pievarmapLookup, h1, h2, h3]

theorem C8_unknown_pievar_defaults_witness :
    ("bogus" ≠ "errorcode" ∧ "bogus" ≠ "sitename" ∧ "bogus" ≠ "stepname") ∧
      (get_row_col_names "bogus" = ("stepname", "sitename") ∧
        get_row_col_names "bogus" = get_row_col_names "errorcode") :=
  ⟨by decide,
    C8_unknown_pievar_defaults "bogus" (by decide) (by decide) (by decide)⟩

/-- Claim C7: a refresh happens only when the caller passes
`can_refresh` and more than 30 minutes (1800 seconds) have elapsed since
the load timestamp: with `can_refresh` and a young handle the handle is
returned identically (same timestamp, same dimension-index lists, no
teardown), and with `can_refresh=False` the handle is never refreshed
regardless of age. -/
theorem C7_refresh_frame (h : Handle) (now : Nat) (load : Except Unit (List Record)) :
    (¬ h.timestamp < now - 60 * 30 → check_session h now true load = (h, false)) ∧
      check_session h now false load = (h, false) := by
  constructor
  · intro hyoung
    simp [check_session, hyoung]
  · simp [check_session]

theorem C7_refresh_frame_witness :
    (¬ (100 : Nat) < 500 - 60 * 30) ∧
      check_session ⟨100, some [], [], [], [], false, false, false⟩ 500 true
        (Except.ok []) = (⟨100, some [], [], [], [], false, false, false⟩, false) ∧
      check_session ⟨100, some [], [], [], [], false, false, false⟩ 500 false
        (Except.ok []) = (⟨100, some [], [], [], [], false, false, false⟩, false) := by
  have h := C7_refresh_frame ⟨100, some [], [], [], [], false, false, false⟩ 500 (Except.ok [])
  exact ⟨by decide, h.1 (by decide), h.2⟩

/-- Claim C4 counterexample: on a loaded handle (timestamp 0, one stored
record), a refresh whose load fails leaves neither the timestamp nor the
record store of the previous epoch intact — `teardown` runs before the
fresh `setup`, so the old epoch is closed first and a failed load leaves
a fresh empty store with an advanced timestamp. -/
theorem C4_failed_refresh_cex :
    (check_session ⟨0, some [⟨"/w/s", "x", "1", 4, "ok"⟩], ["/w/s"], ["1"], ["x"],
        true, true, true⟩ 2000 true (Except.error ())).1.timestamp ≠ 0 ∧
      (check_session ⟨0, some [⟨"/w/s", "x", "1", 4, "ok"⟩], ["/w/s"], ["1"], ["x"],
        true, true, true⟩ 2000 true (Except.error ())).1.store ≠
        some [⟨"/w/s", "x", "1", 4, "ok"⟩] ∧
      (check_session ⟨0, some [⟨"/w/s", "x", "1", 4, "ok"⟩], ["/w/s"], ["1"], ["x"],
        true, true, true⟩ 2000 true (Except.error ())).2 = true := by decide

/-- Claim C4 (amended): a failed refresh does not preserve the prior
epoch.  On a stale handle, `check_session` with `can_refresh` first tears
the handle down and then sets it up again, so when the load raises the
handle is left with the timestamp advanced to the refresh time, a freshly
connected empty store in place of the old epoch's records, all derived
caches discarded, and only the stale dimension-index lists surviving; the
failure is surfaced to the caller. -/
theorem C4_failed_refresh_amended (h : Handle) (now : Nat)
    (hstale : h.timestamp < now - 60 * 30) :
    check_session h now true (Except.error ()) =
      ({ h with timestamp := now, store := some [], step_tables := false,
                step_list := false, clusters := false }, true) := by
  simp [check_session, hstale, teardown, setup]

theorem C4_failed_refresh_amended_witness :
    ((5 : Nat) < 4000 - 60 * 30) ∧
      check_session ⟨5, some [⟨"/w/s", "x", "1", 4, "ok"⟩], ["/w/s"], ["1"], ["x"],
          true, true, true⟩ 4000 true (Except.error ()) =
        (⟨4000, some [], ["/w/s"], ["1"], ["x"], false, false, false⟩, true) :=
  ⟨by decide,
    C4_failed_refresh_amended
      ⟨5, some [⟨"/w/s", "x", "1", 4, "ok"⟩], ["/w/s"], ["1"], ["x"], true, true, true⟩
      4000 (by decide)⟩

theorem lexLe_total (l1 l2 : List Char) : lexLe l1 l2 = true ∨ lexLe l2 l1 = true := by
  induction l1 generalizing l2 with
  | nil => left; simp [lexLe]
  | cons a as ih =>
    cases l2 with
    | nil => right; simp [lexLe]
    | cons b bs =>
      by_cases hab : a = b
      · subst hab
        simp only [lexLe, if_pos rfl]
        exact ih bs
      · rcases lt_trichotomy a b with h | h | h
        · left; simp [lexLe, hab, h]
        · exact absurd h hab
        · right
          have hba : b ≠ a := fun hba => hab hba.symm
          simp [lexLe, hba, h]

theorem lexLe_trans (l1 l2 l3 : List Char) (h12 : lexLe l1 l2 = true)
    (h23 : lexLe l2 l3 = true) : lexLe l1 l3 = true := by
  induction l1 generalizing l2 l3 with
  | nil => simp [lexLe]
  | cons a as ih =>
    cases l2 with
    | nil => simp [lexLe] at h12
    | cons b bs =>
      cases l3 with
      | nil => simp [lexLe] at h23
      | cons c cs =>
        by_cases hab : a = b
        · subst hab
          simp only [lexLe, if_pos rfl] at h12
          by_cases hbc : a = c
          · subst hbc
            simp only [lexLe, if_pos rfl] at h23 ⊢
            exact ih bs cs h12 h23
          · simp only [lexLe, if_neg hbc] at h23 ⊢
            exact h23
        · simp only [lexLe, if_neg hab, decide_eq_true_eq] at h12
          by_cases hbc : b = c
          · subst hbc
            simp only [lexLe, if_neg hab, decide_eq_true_eq]
            exact h12
          · simp only [lexLe, if_neg hbc, decide_eq_true_eq] at h23
            have hvac : a < c := lt_trans h12 h23
            have hac : a ≠ c := ne_of_lt hvac
            simp only [lexLe, if_neg hac, decide_eq_true_eq]
            exact hvac

theorem lexLe_antisymm (l1 l2 : List Char) (h12 : lexLe l1 l2 = true)
    (h21 : lexLe l2 l1 = true) : l1 = l2 := by
  induction l1 generalizing l2 with
  | nil =>
    cases l2 with
    | nil => rfl
    | cons b bs => simp [lexLe] at h21
  | cons a as ih =>
    cases l2 with
    | nil => simp [lexLe] at h12
    | cons b bs =>
      by_cases hab : a = b
      · subst hab
        simp only [lexLe, if_pos rfl] at h12 h21
        rw [ih bs h12 h21]
      · have hba : b ≠ a := fun hba => hab hba.symm
        simp only [lexLe, if_neg hab, decide_eq_true_eq] at h12
        simp only [lexLe, if_neg hba, decide_eq_true_eq] at h21
        exact absurd h21 (lt_asymm h12)

theorem strLe_total (a b : String) : strLe a b = true ∨ strLe b a = true :=
  lexLe_total a.data b.data

theorem strLe_trans (a b c : String) (h1 : strLe a b = true) (h2 : strLe b c = true) :
    strLe a c = true :=
  lexLe_trans a.data b.data c.data h1 h2

theorem strLe_antisymm (a b : String) (h1 : strLe a b = true) (h2 : strLe b a = true) :
    a = b := by
  cases a with
  | mk la =>
    cases b with
    | mk lb =>
      have : la = lb := lexLe_antisymm la lb h1 h2
      rw [this]

theorem codeLe_total (a b : String) : codeLe a b = true ∨ codeLe b a = true := by
  unfold codeLe
  rcases h1 : safe_int a with _ | x <;> rcases h2 : safe_int b with _ | y
  · exact strLe_total a b
  · right; rfl
  · left; rfl
  · simp only [decide_eq_true_eq]
    exact le_total x y

theorem codeLe_trans (a b c : String) (h1 : codeLe a b = true) (h2 : codeLe b c = true) :
    codeLe a c = true := by
  unfold codeLe at h1 h2 ⊢
  rcases ha : safe_int a with _ | x <;> rcases hb : safe_int b with _ | y <;>
    rcases hc : safe_int c with _ | z <;> simp [ha, hb, hc] at h1 h2 ⊢
  · exact strLe_trans a b c h1 h2
  · exact le_trans h1 h2

/-- Claim C6: the error-code dimension index is sorted with a
numeric-aware total order — integer-parsing codes compare by their
integer value, a non-parsing code sorts after every integer code — the
index produced by `set_all_lists` is sorted by that order and is a
permutation of the distinct codes, and the input codes
`["10", "2", "abc"]` sort to `["2", "10", "abc"]`. -/
theorem C6_error_code_order :
    (∀ a b : String, codeLe a b = true ∨ codeLe b a = true) ∧
      (∀ (a b : String) (x y : Int), safe_int a = some x → safe_int b = some y →
        (codeLe a b = true ↔ x ≤ y)) ∧
      (∀ (a b : String) (x : Int), safe_int a = some x → safe_int b = none →
        codeLe a b = true ∧ codeLe b a = false) ∧
      (∀ store : List Record,
        (allerrors store).Pairwise (fun a b => codeLe a b = true) ∧
          (allerrors store).Perm (distinctVals (store.map (fun r => r.errorcode)))) ∧
      sortLe codeLe ["10", "2", "abc"] = ["2", "10", "abc"] := by
  refine ⟨codeLe_total, ?_, ?_, ?_, by decide⟩
  · intro a b x y hx hy
    simp [codeLe, hx, hy]
  · intro a b x hx hy
    constructor <;> simp [codeLe, hx, hy]
  · intro store
    exact ⟨pairwise_sortLe codeLe codeLe_total codeLe_trans _, sortLe_perm codeLe _⟩

theorem C6_error_code_order_witness :
    (safe_int "2" = some 2 ∧ safe_int "10" = some 10 ∧ safe_int "abc" = none) ∧
      (codeLe "2" "10" = true ↔ (2 : Int) ≤ 10) ∧
      (codeLe "2" "abc" = true ∧ codeLe "abc" "2" = false) :=
  ⟨by decide,
    C6_error_code_order.2.1 "2" "10" 2 10 (by decide) (by decide),
    C6_error_code_order.2.2.1 "2" "abc" 2 (by decide) (by decide)⟩

theorem bumpErr_read (f : String → String → String → Nat) (g row col : String) (n : Nat)
    (g' r' c' : String) :
    bumpErr f g row col n g' r' c' =
      f g' r' c' + (if g' = g ∧ r' = row ∧ c' = col then n else 0) := by
  unfold bumpErr
  split <;> simp

theorem addRowErrs_read (cols : List (String × Nat)) (g row : String)
    (f : String → String → String → Nat) (g' r' c' : String) :
    addRowErrs g row f cols g' r' c' =
      f g' r' c' +
        (if g' = g ∧ r' = row then
          (cols.map (fun cn => if c' = cn.1 then cn.2 else 0)).sum else 0) := by
  induction cols generalizing f with
  | nil => simp [addRowErrs]
  | cons cn cols ih =>
    show addRowErrs g row (bumpErr f g row cn.1 cn.2) cols g' r' c' = _
    rw [ih, bumpErr_read]
    rcases Decidable.em (g' = g) with hg | hg <;>
      rcases Decidable.em (r' = row) with hr | hr <;>
        rcases Decidable.em (c' = cn.1) with hc | hc <;>
          simp [hg, hr, hc] <;> omega

theorem addEntryErrs_read (errs : List (String × List (String × Nat))) (g : String)
    (f : String → String → String → Nat) (g' r' c' : String) :
    addEntryErrs g f errs g' r' c' =
      f g' r' c' + (if g' = g then entryErrAt errs r' c' else 0) := by
  induction errs generalizing f with
  | nil => simp [addEntryErrs, entryErrAt]
  | cons rv errs ih =>
    show addEntryErrs g (addRowErrs g rv.1 f rv.2) errs g' r' c' = _
    rw [ih, addRowErrs_read]
    rcases Decidable.em (g' = g) with hg | hg <;>
      rcases Decidable.em (r' = rv.1) with hr | hr <;>
        simp [entryErrAt, hg, hr] <;> omega

theorem group_errors_foldl_total (gf : String → String) (input : List (String × ErrEntry))
    (out : GroupedOut) (g : String) :
    (input.foldl
      (fun out kv =>
        { errors := addEntryErrs (gf kv.1) out.errors kv.2.errors,
          total := fun g' => if g' = gf kv.1 then out.total g' + kv.2.total
            else out.total g' }) out).total g =
      out.total g + (input.map (fun kv => if g = gf kv.1 then kv.2.total else 0)).sum := by
  induction input generalizing out with
  | nil => simp
  | cons kv input ih =>
    rw [List.foldl_cons, ih]
    simp only [List.map_cons, List.sum_cons]
    by_cases hg : g = gf kv.1
    · simp only [if_pos hg]
      omega
    · simp only [if_neg hg]
      omega

theorem group_errors_foldl_errors (gf : String → String) (input : List (String × ErrEntry))
    (out : GroupedOut) (g r c : String) :
    (input.foldl
      (fun out kv =>
        { errors := addEntryErrs (gf kv.1) out.errors kv.2.errors,
          total := fun g' => if g' = gf kv.1 then out.total g' + kv.2.total
            else out.total g' }) out).errors g r c =
      out.errors g r c +
        (input.map (fun kv => if g = gf kv.1 then entryErrAt kv.2.errors r c else 0)).sum := by
  induction input generalizing out with
  | nil => simp
  | cons kv input ih =>
    rw [List.foldl_cons, ih]
    simp only [List.map_cons, List.sum_cons, addEntryErrs_read]
    by_cases hg : g = gf kv.1
    · simp only [if_pos hg]
      omega
    · simp only [if_neg hg]
      omega

theorem group_errors_total_closed (input : List (String × ErrEntry)) (gf : String → String)
    (g : String) :
    (group_errors input gf).total g =
      (input.map (fun kv => if g = gf kv.1 then kv.2.total else 0)).sum := by
  unfold group_errors
  rw [group_errors_foldl_total]
  simp

theorem group_errors_errors_closed (input : List (String × ErrEntry)) (gf : String → String)
    (g r c : String) :
    (group_errors input gf).errors g r c =
      (input.map (fun kv => if g = gf kv.1 then entryErrAt kv.2.errors r c else 0)).sum := by
  unfold group_errors
  rw [group_errors_foldl_errors]
  simp

/-- Claim C5: `group_errors` is order-independent in its input entries —
presenting the same entries (a dict's items, modelled as a list) in any
iteration order yields identical per-group totals and identical
element-wise nested error sums for every pure grouping function.  The
input is a value of the functional model and is never mutated by
construction, matching the Python code, which only writes into its fresh
`default_errors_format()` output. -/
theorem C5_group_errors_order_independent (input₁ input₂ : List (String × ErrEntry))
    (gf : String → String) (hperm : input₁.Perm input₂) :
    (group_errors input₁ gf).total = (group_errors input₂ gf).total ∧
      (group_errors input₁ gf).errors = (group_errors input₂ gf).errors := by
  constructor
  · funext g
    rw [group_errors_total_closed, group_errors_total_closed]
    exact (hperm.map (fun kv => if g = gf kv.1 then kv.2.total else 0)).sum_eq
  · funext g r c
    rw [group_errors_errors_closed, group_errors_errors_closed]
    exact (hperm.map (fun kv => if g = gf kv.1 then entryErrAt kv.2.errors r c else 0)).sum_eq

theorem C5_group_errors_order_independent_witness :
    (([("k1", ⟨[("r", [("c", 2)])], 2⟩), ("k2", ⟨[("r", [("c", 3)])], 3⟩)] :
        List (String × ErrEntry)).Perm
      [("k2", ⟨[("r", [("c", 3)])], 3⟩), ("k1", ⟨[("r", [("c", 2)])], 2⟩)]) ∧
      ((group_errors [("k1", ⟨[("r", [("c", 2)])], 2⟩), ("k2", ⟨[("r", [("c", 3)])], 3⟩)]
          (fun _ => "g")).total =
        (group_errors [("k2", ⟨[("r", [("c", 3)])], 3⟩), ("k1", ⟨[("r", [("c", 2)])], 2⟩)]
          (fun _ => "g")).total ∧
        (group_errors [("k1", ⟨[("r", [("c", 2)])], 2⟩), ("k2", ⟨[("r", [("c", 3)])], 3⟩)]
          (fun _ => "g")).errors =
        (group_errors [("k2", ⟨[("r", [("c", 3)])], 3⟩), ("k1", ⟨[("r", [("c", 2)])], 2⟩)]
          (fun _ => "g")).errors) :=
  ⟨by decide,
    C5_group_errors_order_independent
      [("k1", ⟨[("r", [("c", 2)])], 2⟩), ("k2", ⟨[("r", [("c", 3)])], 3⟩)]
      [("k2", ⟨[("r", [("c", 3)])], 3⟩), ("k1", ⟨[("r", [("c", 2)])], 2⟩)]
      (fun _ => "g") (by decide)⟩

theorem return_loop_eq_dedupFrom (steps : List String) (last : String) :
    return_loop last steps = dedupFrom last (steps.map stepSeg) := by
  induction steps generalizing last with
  | nil => rfl
  | cons step steps ih =>
    simp only [return_loop, List.map_cons, dedupFrom]
    by_cases h : stepSeg step = last
    · rw [if_pos h, if_pos h, ih]
    · rw [if_neg h, if_neg h, ih]

theorem firstDedupAux_congr_seen [DecidableEq α] (l : List α) (s1 s2 : List α)
    (h : ∀ x ∈ l, x ∈ s1 ↔ x ∈ s2) : firstDedupAux s1 l = firstDedupAux s2 l := by
  induction l generalizing s1 s2 with
  | nil => rfl
  | cons v l ih =>
    simp only [firstDedupAux]
    by_cases hv : v ∈ s1
    · rw [if_pos hv, if_pos ((h v (List.mem_cons_self v l)).mp hv)]
      exact ih s1 s2 (fun x hx => h x (List.mem_cons_of_mem v hx))
    · rw [if_neg hv, if_neg (fun h2 => hv ((h v (List.mem_cons_self v l)).mpr h2))]
      refine congrArg (v :: ·) (ih (v :: s1) (v :: s2) (fun x hx => ?_))
      simp only [List.mem_cons]
      rcases Decidable.em (x = v) with hxv | hxv
      · simp [hxv]
      · simp only [hxv, false_or]
        exact h x (List.mem_cons_of_mem v hx)

theorem mem_of_mem_firstDedupAux [DecidableEq α] (l seen : List α) (x : α)
    (h : x ∈ firstDedupAux seen l) : x ∈ l := by
  induction l generalizing seen with
  | nil => simp [firstDedupAux] at h
  | cons v l ih =>
    simp only [firstDedupAux] at h
    by_cases hv : v ∈ seen
    · rw [if_pos hv] at h
      exact List.mem_cons_of_mem v (ih seen h)
    · rw [if_neg hv] at h
      rcases List.mem_cons.mp h with hx | hx
      · simp [hx]
      · exact List.mem_cons_of_mem v (ih (v :: seen) hx)

theorem not_mem_firstDedupAux_of_seen [DecidableEq α] (l seen : List α) (x : α)
    (hx : x ∈ seen) : x ∉ firstDedupAux seen l := by
  induction l generalizing seen with
  | nil => simp [firstDedupAux]
  | cons v l ih =>
    simp only [firstDedupAux]
    by_cases hv : v ∈ seen
    · rw [if_pos hv]
      exact ih seen hx
    · rw [if_neg hv]
      intro hmem
      rcases List.mem_cons.mp hmem with h | h
      · subst h
        exact hv hx
      · exact ih (v :: seen) (List.mem_cons_of_mem v hx) h

theorem nodup_firstDedupAux [DecidableEq α] (l seen : List α) :
    (firstDedupAux seen l).Nodup := by
  induction l generalizing seen with
  | nil => simp [firstDedupAux]
  | cons v l ih =>
    simp only [firstDedupAux]
    by_cases hv : v ∈ seen
    · rw [if_pos hv]
      exact ih seen
    · rw [if_neg hv]
      exact List.Nodup.cons
        (not_mem_firstDedupAux_of_seen l (v :: seen) v (List.mem_cons_self v seen))
        (ih (v :: seen))

theorem mem_firstDedupAux [DecidableEq α] (l seen : List α) (x : α)
    (hx : x ∈ l) (hs : x ∉ seen) : x ∈ firstDedupAux seen l := by
  induction l generalizing seen with
  | nil => simp at hx
  | cons v l ih =>
    simp only [firstDedupAux]
    by_cases hv : v ∈ seen
    · rw [if_pos hv]
      rcases List.mem_cons.mp hx with hxv | hxl
      · subst hxv
        exact absurd hv hs
      · exact ih seen hxl hs
    · rw [if_neg hv]
      rcases Decidable.em (x = v) with hxv | hxv
      · simp [hxv]
      · rcases List.mem_cons.mp hx with h | hxl
        · exact absurd h hxv
        · refine List.mem_cons_of_mem v (ih (v :: seen) hxl ?_)
          simp only [List.mem_cons]
          exact fun h => h.elim hxv hs

theorem chunkedB_cons (v : String) (l : List String) :
    ChunkedB (v :: l) = true ↔ ChunkedB l = true ∧ (v ∉ l ∨ l.head? = some v) := by
  simp [ChunkedB]

theorem dedupFrom_eq_firstDedupAux (l : List String) (last : String)
    (h : ChunkedB (last :: l) = true) : dedupFrom last l = firstDedupAux [last] l := by
  induction l generalizing last with
  | nil => rfl
  | cons v l ih =>
    obtain ⟨h1, h2⟩ := (chunkedB_cons last (v :: l)).mp h
    simp only [dedupFrom, firstDedupAux, List.mem_singleton]
    by_cases hv : v = last
    · rw [if_pos hv, if_pos hv]
      subst hv
      exact ih v h1
    · rw [if_neg hv, if_neg hv]
      have hlast : last ∉ l := by
        rcases h2 with h2 | h2
        · intro hmem
          exact h2 (List.mem_cons_of_mem v hmem)
        · simp only [List.head?_cons, Option.some.injEq] at h2
          exact absurd h2 hv
      rw [ih v h1]
      refine congrArg (v :: ·) (firstDedupAux_congr_seen l [v] [v, last] (fun x hx => ?_))
      simp only [List.mem_cons, List.not_mem_nil, or_false]
      constructor
      · exact fun h => Or.inl h
      · rintro (h | h)
        · exact h
        · subst h
          exact absurd hx hlast

/-- Claim C9 counterexample: for the loaded (sorted, distinct) step list
`["/A", "/A!b", "/A/c"]` the steps `"/A"` and `"/A/c"` share the second
segment `"A"` but are separated by `"/A!b"` (`'!' < '/'` in ASCII), so
`return_workflows` emits `"A"` twice — the loop only collapses
consecutive repeats. -/
theorem C9_return_workflows_cex :
    return_workflows ["/A", "/A!b", "/A/c"] = ["A", "A!b", "A"] ∧
      ¬(return_workflows ["/A", "/A!b", "/A/c"]).Nodup := by decide

/-- Claim C9 (amended): whenever equal second segments occur only
consecutively in `allsteps` (which holds for sorted step names of the
`/workflow/task` shape) and the empty segment does not occur,
`return_workflows` returns exactly the second path segment of each step,
in first-occurrence order, with no identifier appearing twice. -/
theorem C9_return_workflows_amended (steps : List String)
    (hch : ChunkedB (steps.map stepSeg) = true)
    (hemp : "" ∉ steps.map stepSeg) :
    return_workflows steps = distinctVals (steps.map stepSeg) ∧
      (return_workflows steps).Nodup ∧
      ∀ s ∈ steps, stepSeg s ∈ return_workflows steps := by
  have hch' : ChunkedB ("" :: steps.map stepSeg) = true :=
    (chunkedB_cons "" (steps.map stepSeg)).mpr ⟨hch, Or.inl hemp⟩
  have heq : return_workflows steps = distinctVals (steps.map stepSeg) := by
    rw [return_workflows, return_loop_eq_dedupFrom,
      dedupFrom_eq_firstDedupAux (steps.map stepSeg) "" hch']
    refine firstDedupAux_congr_seen (steps.map stepSeg) [""] [] (fun x hx => ?_)
    simp only [List.mem_singleton, List.not_mem_nil, iff_false]
    intro h
    subst h
    exact hemp hx
  refine ⟨heq, ?_, ?_⟩
  · rw [heq]
    exact nodup_firstDedupAux (steps.map stepSeg) []
  · intro s hs
    rw [heq]
    exact mem_firstDedupAux (steps.map stepSeg) [] (stepSeg s)
      (List.mem_map_of_mem stepSeg hs) (List.not_mem_nil (stepSeg s))

theorem C9_return_workflows_amended_witness :
    (ChunkedB (["/w1/a", "/w1/b", "/w2/c"].map stepSeg) = true ∧
        "" ∉ ["/w1/a", "/w1/b", "/w2/c"].map stepSeg) ∧
      (return_workflows ["/w1/a", "/w1/b", "/w2/c"] =
          distinctVals (["/w1/a", "/w1/b", "/w2/c"].map stepSeg) ∧
        (return_workflows ["/w1/a", "/w1/b", "/w2/c"]).Nodup ∧
        ∀ s ∈ ["/w1/a", "/w1/b", "/w2/c"], stepSeg s ∈
          return_workflows ["/w1/a", "/w1/b", "/w2/c"]) :=
  ⟨by decide,
    C9_return_workflows_amended ["/w1/a", "/w1/b", "/w2/c"] (by decide) (by decide)⟩

theorem firstDedupAux_of_nodup [DecidableEq α] (l seen : List α) (hnd : l.Nodup)
    (hs : ∀ x ∈ l, x ∉ seen) : firstDedupAux seen l = l := by
  induction l generalizing seen with
  | nil => rfl
  | cons v l ih =>
    simp only [firstDedupAux]
    rw [if_neg (hs v (List.mem_cons_self v l))]
    refine congrArg (v :: ·) (ih (v :: seen) (List.Nodup.of_cons hnd) (fun x hx => ?_))
    simp only [List.mem_cons, not_or]
    exact ⟨fun h => (List.nodup_cons.mp hnd).1 (h ▸ hx),
      hs x (List.mem_cons_of_mem v hx)⟩

theorem rcp_injOn_triple (pievar : String) (r1 r2 : Record)
    (hr : (rcpOf pievar r1).1 = (rcpOf pievar r2).1)
    (hc : (rcpOf pievar r1).2.1 = (rcpOf pievar r2).2.1)
    (hp : (rcpOf pievar r1).2.2 = (rcpOf pievar r2).2.2) :
    tripleOf r1 = tripleOf r2 := by
  by_cases h1 : pievar = "errorcode"
  · simp [rcpOf, get_row_col_names, pievarmapLookup, fieldOf, h1] at hr hc hp
    simp [tripleOf, hr, hc, hp]
  · by_cases h2 : pievar = "sitename"
    · simp [rcpOf, get_row_col_names, pievarmapLookup, fieldOf, h2] at hr hc hp
      simp [tripleOf, hr, hc, hp]
    · by_cases h3 : pievar = "stepname"
      · simp [rcpOf, get_row_col_names, pievarmapLookup, fieldOf, h3] at hr hc hp
        simp [tripleOf, hr, hc, hp]
      · simp [rcpOf, get_row_col_names, pievarmapLookup, fieldOf, h1, h2, h3] at hr hc hp
        simp [tripleOf, hr, hc, hp]

theorem sum_extract_eq (l : List Record) (f : Record → String × String)
    (hnd : (l.map f).Nodup) :
    ((l.map f).map (fun cv =>
      match (l.filter (fun r => decide (f r = cv))).getLast? with
      | some r => r.numbererrors
      | none => 0)).sum = (l.map (fun r => r.numbererrors)).sum := by
  induction l with
  | nil => rfl
  | cons r l ih =>
    rw [List.map_cons, List.map_cons, List.sum_cons, List.map_cons, List.sum_cons]
    obtain ⟨hnotmem, hnd'⟩ := List.nodup_cons.mp hnd
    have hfilter_tail : l.filter (fun x => decide (f x = f r)) = [] := by
      rw [List.filter_eq_nil_iff]
      intro x hx
      simp only [decide_eq_true_eq]
      intro hfx
      exact hnotmem (hfx ▸ List.mem_map_of_mem f hx)
    have hhead : (List.filter (fun x => decide (f x = f r)) (r :: l)).getLast? = some r := by
      rw [List.filter_cons_of_pos (by simp), hfilter_tail]
      rfl
    have hrest : (l.map f).map (fun cv =>
        match ((r :: l).filter (fun x => decide (f x = cv))).getLast? with
        | some x => x.numbererrors
        | none => 0) = (l.map f).map (fun cv =>
        match (l.filter (fun x => decide (f x = cv))).getLast? with
        | some x => x.numbererrors
        | none => 0) := by
      refine List.map_congr_left (fun cv hcv => ?_)
      have hne : ¬(f r = cv) := fun h => hnotmem (h ▸ hcv)
      rw [List.filter_cons_of_neg (by simp [hne])]
    rw [hhead, hrest, ih hnd']

theorem decide_rcp_split (pievar row : String) (cv : String × String) (r : Record) :
    decide (rcpOf pievar r = (row, cv.1, cv.2)) =
      (decide (((rcpOf pievar r).2.1, (rcpOf pievar r).2.2) = cv) &&
        decide ((rcpOf pievar r).1 = row)) := by
  rcases hcv : cv with ⟨c1, c2⟩
  rcases h : rcpOf pievar r with ⟨a, b, c⟩
  by_cases h1 : a = row <;> by_cases h2 : b = c1 <;> by_cases h3 : c = c2 <;>
    simp [Prod.ext_iff, h1, h2, h3]

/-- Claim C10: on a store in which every `(stepname, sitename, errorcode)`
triple occurs at most once, each row entry built by `get_errors(pievar)`
has its `total` equal to the sum of its nested `errors` counts over all
column values and all pie values (the keys its nested dicts receive). -/
theorem C10_get_errors_row_total (store : List Record) (pievar row : String)
    (hnd : TriplesNodup store) :
    ge_total store pievar row =
      ((distinctVals (ge_keyPairs store pievar row)).map
        (fun cv => ge_errors store pievar row cv.1 cv.2)).sum := by
  have hperm : (sortedContents store pievar).Perm store := sortLe_perm (rcpLe pievar) store
  have hTrip : ((sortedContents store pievar).map tripleOf).Nodup :=
    (hperm.map tripleOf).nodup_iff.mpr hnd
  have hsub : List.Sublist
      ((sortedContents store pievar).filter (fun r => decide ((rcpOf pievar r).1 = row)))
      (sortedContents store pievar) := List.filter_sublist _
  have hTripl : (((sortedContents store pievar).filter
      (fun r => decide ((rcpOf pievar r).1 = row))).map tripleOf).Nodup :=
    hTrip.sublist (hsub.map tripleOf)
  have hlnd : ((sortedContents store pievar).filter
      (fun r => decide ((rcpOf pievar r).1 = row))).Nodup := hTripl.of_map
  have hinj : ∀ x ∈ (sortedContents store pievar).filter
        (fun r => decide ((rcpOf pievar r).1 = row)),
      ∀ y ∈ (sortedContents store pievar).filter
        (fun r => decide ((rcpOf pievar r).1 = row)),
      (fun r => ((rcpOf pievar r).2.1, (rcpOf pievar r).2.2)) x =
        (fun r => ((rcpOf pievar r).2.1, (rcpOf pievar r).2.2)) y → x = y := by
    intro x hx y hy hp
    have hrowx : (rcpOf pievar x).1 = row := by
      have := (List.mem_filter.mp hx).2
      simpa using this
    have hrowy : (rcpOf pievar y).1 = row := by
      have := (List.mem_filter.mp hy).2
      simpa using this
    obtain ⟨hp1, hp2⟩ := Prod.mk.injEq .. ▸ hp
    exact List.inj_on_of_nodup_map hTripl hx hy
      (rcp_injOn_triple pievar x y (hrowx.trans hrowy.symm) hp1 hp2)
  have hpnd : (((sortedContents store pievar).filter
      (fun r => decide ((rcpOf pievar r).1 = row))).map
        (fun r => ((rcpOf pievar r).2.1, (rcpOf pievar r).2.2))).Nodup :=
    List.Nodup.map_on hinj hlnd
  have hdedup : distinctVals (ge_keyPairs store pievar row) = ge_keyPairs store pievar row := by
    unfold distinctVals ge_keyPairs
    exact firstDedupAux_of_nodup _ [] hpnd (by simp)
  rw [hdedup]
  unfold ge_total ge_keyPairs
  have hcell : ∀ cv ∈ ((sortedContents store pievar).filter
        (fun r => decide ((rcpOf pievar r).1 = row))).map
          (fun r => ((rcpOf pievar r).2.1, (rcpOf pievar r).2.2)),
      ge_errors store pievar row cv.1 cv.2 =
        match (((sortedContents store pievar).filter
            (fun r => decide ((rcpOf pievar r).1 = row))).filter
              (fun r => decide (((rcpOf pievar r).2.1, (rcpOf pievar r).2.2) = cv))).getLast?
          with
        | some r => r.numbererrors
        | none => 0 := by
    intro cv _
    unfold ge_errors
    rw [List.filter_filter]
    congr 1
    refine congrArg _ (List.filter_congr (fun r _ => ?_))
    exact decide_rcp_split pievar row cv r
  rw [List.map_congr_left hcell]
  exact (sum_extract_eq _ _ hpnd).symm

theorem C10_get_errors_row_total_witness :
    (([⟨"/w/s", "x", "1", 4, "ok"⟩, ⟨"/w/s", "y", "2", 6, "ok"⟩] : List Record).map
        tripleOf).Nodup ∧
      ge_total [⟨"/w/s", "x", "1", 4, "ok"⟩, ⟨"/w/s", "y", "2", 6, "ok"⟩] "errorcode" "/w/s" =
        ((distinctVals (ge_keyPairs [⟨"/w/s", "x", "1", 4, "ok"⟩, ⟨"/w/s", "y", "2", 6, "ok"⟩]
            "errorcode" "/w/s")).map
          (fun cv => ge_errors [⟨"/w/s", "x", "1", 4, "ok"⟩, ⟨"/w/s", "y", "2", 6, "ok"⟩]
            "errorcode" "/w/s" cv.1 cv.2)).sum :=
  ⟨by decide,
    C10_get_errors_row_total [⟨"/w/s", "x", "1", 4, "ok"⟩, ⟨"/w/s", "y", "2", 6, "ok"⟩]
      "errorcode" "/w/s" (by unfold TriplesNodup; decide)⟩

theorem pyEnumFrom_length (l : List α) (i : Nat) : (pyEnumFrom i l).length = l.length := by
  induction l generalizing i with
  | nil => rfl
  | cons a l ih => simp [pyEnumFrom, ih]

theorem pyEnumFrom_map_fst (l : List α) (i : Nat) :
    (pyEnumFrom i l).map (fun p => p.1) = List.range' i l.length := by
  induction l generalizing i with
  | nil => rfl
  | cons a l ih => simp [pyEnumFrom, List.range'_succ, ih]

theorem mem_pyEnumFrom (l : List Nat) (i : Nat) (p : Nat × Nat) (h : p ∈ pyEnumFrom i l) :
    i ≤ p.1 ∧ p.1 - i < l.length ∧ l.getD (p.1 - i) 0 = p.2 := by
  induction l generalizing i with
  | nil => simp [pyEnumFrom] at h
  | cons a l ih =>
    simp only [pyEnumFrom] at h
    rcases List.mem_cons.mp h with hp | hp
    · subst hp
      simp
    · obtain ⟨h1, h2, h3⟩ := ih (i + 1) hp
      refine ⟨by omega, by simp; omega, ?_⟩
      have hd : p.1 - i = (p.1 - (i + 1)) + 1 := by omega
      rw [hd, List.getD_cons_succ]
      exact h3

theorem mem_pyEnumFrom_of_lt (l : List Nat) (i j : Nat) (hj : j < l.length) :
    (i + j, l.getD j 0) ∈ pyEnumFrom i l := by
  induction l generalizing i j with
  | nil => simp at hj
  | cons a l ih =>
    cases j with
    | zero => simp [pyEnumFrom]
    | succ j =>
      have : i + (j + 1) = (i + 1) + j := by omega
      rw [this, List.getD_cons_succ]
      exact List.mem_cons_of_mem _ (ih (i + 1) j (by simpa using hj))

theorem pairwise_fst_pyEnumFrom (l : List α) (i : Nat) :
    (pyEnumFrom i l).Pairwise (fun a b => a.1 < b.1) := by
  induction l generalizing i with
  | nil => simp [pyEnumFrom]
  | cons a l ih =>
    simp only [pyEnumFrom]
    refine List.Pairwise.cons (fun p hp => ?_) (ih (i + 1))
    have : ∀ (m : List α) (k : Nat) (q : Nat × α), q ∈ pyEnumFrom k m → k ≤ q.1 := by
      intro m
      induction m with
      | nil => intro k q hq; simp [pyEnumFrom] at hq
      | cons b m ihm =>
        intro k q hq
        rcases List.mem_cons.mp hq with h | h
        · subst h; simp
        · exact Nat.le_of_succ_le (ihm (k + 1) q h)
    exact Nat.lt_of_succ_le (this l (i + 1) p hp)

theorem pairwise_insertLe_desc (a : Nat × Nat) (l : List (Nat × Nat))
    (h : l.Pairwise descRel) (hlt : ∀ b ∈ l, a.1 < b.1) :
    (insertLe descSnd a l).Pairwise descRel := by
  induction l with
  | nil => simp [insertLe]
  | cons b l ih =>
    rw [List.pairwise_cons] at h
    obtain ⟨hb, hl⟩ := h
    simp only [insertLe]
    by_cases hab : descSnd a b = true
    · rw [if_pos hab]
      simp only [descSnd, decide_eq_true_eq] at hab
      refine List.Pairwise.cons (fun y hy => ?_) (List.Pairwise.cons hb hl)
      rcases List.mem_cons.mp hy with hyb | hyl
      · subst hyb
        have := hlt y (List.mem_cons_self y l)
        simp only [descRel]
        omega
      · have h1 := hb y hyl
        have h2 := hlt y (List.mem_cons_of_mem b hyl)
        simp only [descRel] at h1 ⊢
        omega
    · rw [if_neg hab]
      simp only [descSnd, decide_eq_true_eq] at hab
      refine List.Pairwise.cons (fun y hy => ?_)
        (ih hl (fun c hc => hlt c (List.mem_cons_of_mem b hc)))
      rcases (mem_insertLe descSnd a y l).mp hy with hya | hyl
      · subst hya
        simp only [descRel]
        omega
      · exact hb y hyl

theorem pairwise_sortLe_desc (l : List (Nat × Nat))
    (h : l.Pairwise (fun a b => a.1 < b.1)) : (sortLe descSnd l).Pairwise descRel := by
  induction l with
  | nil => simp [sortLe]
  | cons a l ih =>
    rw [List.pairwise_cons] at h
    obtain ⟨ha, hl⟩ := h
    exact pairwise_insertLe_desc a (sortLe descSnd l) (ih hl)
      (fun b hb => ha b ((sortLe_perm descSnd l).mem_iff.mp hb))

theorem addCell_length (acc cell : List Nat) : (addCell acc cell).length = acc.length := by
  simp [addCell, pyEnum, pyEnumFrom_length]

theorem foldl_addCell_length (cells : List (List Nat)) (acc : List Nat) :
    (cells.foldl addCell acc).length = acc.length := by
  induction cells generalizing acc with
  | nil => rfl
  | cons c cells ih => rw [List.foldl_cons, ih, addCell_length]

theorem sum_list_length (store : List Record) (pievar : String) :
    (sum_list store pievar).length = (allmapOf store pievar).length := by
  unfold sum_list
  rw [foldl_addCell_length, List.length_replicate]

theorem sorted_enum_mem_bound (store : List Record) (pievar : String) (p : Nat × Nat)
    (hp : p ∈ sorted_enum store pievar) :
    p.1 < (sum_list store pievar).length ∧ (sum_list store pievar).getD p.1 0 = p.2 := by
  have hmem : p ∈ pyEnum (sum_list store pievar) :=
    (sortLe_perm descSnd (pyEnum (sum_list store pievar))).mem_iff.mp hp
  obtain ⟨h1, h2, h3⟩ := mem_pyEnumFrom (sum_list store pievar) 0 p hmem
  simp only [Nat.sub_zero] at h2 h3
  exact ⟨h2, h3⟩

/-- Claim C3: every cell of one pivot result is reindexed by one and the
same permutation of the pie-value positions — `slice_order` is a
permutation of the index range, sorted by the grand totals `sum_list`
descending with ties keeping the dimension index's natural (ascending
index) order, that single order is applied uniformly to every cell of
`sorted_pieinfo`, and the globally largest contributor occupies the first
slice position of every cell. -/
theorem C3_pivot_slice_order (store : List Record) (pievar : String)
    (hpv : pievar = "errorcode" ∨ pievar = "sitename" ∨ pievar = "stepname") :
    (slice_order store pievar).Perm (List.range (allmapOf store pievar).length) ∧
      (slice_order store pievar).Pairwise (fun i j =>
        (sum_list store pievar).getD j 0 < (sum_list store pievar).getD i 0 ∨
          ((sum_list store pievar).getD i 0 = (sum_list store pievar).getD j 0 ∧ i < j)) ∧
      sorted_pieinfo store pievar =
        (pieinfo store pievar).map (fun info =>
          (slice_order store pievar).map (fun i => info.getD i 0)) ∧
      ∀ i0, (slice_order store pievar).head? = some i0 →
        ∀ j < (allmapOf store pievar).length,
          (sum_list store pievar).getD j 0 ≤ (sum_list store pievar).getD i0 0 := by
  have hlen := sum_list_length store pievar
  have hpair : (sorted_enum store pievar).Pairwise descRel :=
    pairwise_sortLe_desc (pyEnum (sum_list store pievar))
      (pairwise_fst_pyEnumFrom (sum_list store pievar) 0)
  refine ⟨?_, ?_, rfl, ?_⟩
  · have h2 : (pyEnum (sum_list store pievar)).map (fun p => p.1) =
        List.range (allmapOf store pievar).length := by
      unfold pyEnum
      rw [pyEnumFrom_map_fst, ← List.range_eq_range', hlen]
    have h1 := (sortLe_perm descSnd (pyEnum (sum_list store pievar))).map (fun p => p.1)
    rw [h2] at h1
    exact h1
  · have hpair2 : (sorted_enum store pievar).Pairwise (fun a b =>
        (sum_list store pievar).getD b.1 0 < (sum_list store pievar).getD a.1 0 ∨
          ((sum_list store pievar).getD a.1 0 = (sum_list store pievar).getD b.1 0 ∧
            a.1 < b.1)) := by
      refine hpair.imp_of_mem (fun {a b} ha hb hr => ?_)
      obtain ⟨_, ha2⟩ := sorted_enum_mem_bound store pievar a ha
      obtain ⟨_, hb2⟩ := sorted_enum_mem_bound store pievar b hb
      simp only [descRel] at hr
      rw [ha2, hb2]
      exact hr
    exact List.pairwise_map.mpr hpair2
  · intro i0 hh j hj
    have hjlen : j < (sum_list store pievar).length := by omega
    have hmem : (j, (sum_list store pievar).getD j 0) ∈ pyEnum (sum_list store pievar) := by
      have := mem_pyEnumFrom_of_lt (sum_list store pievar) 0 j hjlen
      simpa using this
    have hmem2 : (j, (sum_list store pievar).getD j 0) ∈ sorted_enum store pievar :=
      (sortLe_perm descSnd (pyEnum (sum_list store pievar))).mem_iff.mpr hmem
    rcases hse : sorted_enum store pievar with _ | ⟨hd, rest⟩
    · rw [hse] at hmem2
      simp at hmem2
    · have hh2 : i0 = hd.1 := by
        unfold slice_order at hh
        rw [hse] at hh
        simp only [List.map_cons, List.head?_cons, Option.some.injEq] at hh
        exact hh.symm
      have hhd := sorted_enum_mem_bound store pievar hd (by
        rw [hse]
        exact List.mem_cons_self hd rest)
      rw [hse] at hmem2
      subst hh2
      rcases List.mem_cons.mp hmem2 with he | he
      · have hj1 : j = hd.1 := congrArg Prod.fst he
        rw [hj1]
      · rw [hse] at hpair
        have hp : descRel hd (j, (sum_list store pievar).getD j 0) :=
          (List.pairwise_cons.mp hpair).1 _ he
        have hp2 : (sum_list store pievar).getD j 0 < hd.2 ∨
            (hd.2 = (sum_list store pievar).getD j 0 ∧ hd.1 < j) := hp
        have hhd2 : (sum_list store pievar).getD hd.1 0 = hd.2 := hhd.2
        omega

theorem C3_pivot_slice_order_witness :
    ("errorcode" = "errorcode" ∨ "errorcode" = "sitename" ∨ "errorcode" = "stepname") ∧
      ((slice_order [⟨"/w/s", "x", "1", 4, "ok"⟩] "errorcode").Perm
          (List.range (allmapOf [⟨"/w/s", "x", "1", 4, "ok"⟩] "errorcode").length) ∧
        (slice_order [⟨"/w/s", "x", "1", 4, "ok"⟩] "errorcode").Pairwise (fun i j =>
          (sum_list [⟨"/w/s", "x", "1", 4, "ok"⟩] "errorcode").getD j 0 <
              (sum_list [⟨"/w/s", "x", "1", 4, "ok"⟩] "errorcode").getD i 0 ∨
            ((sum_list [⟨"/w/s", "x", "1", 4, "ok"⟩] "errorcode").getD i 0 =
                (sum_list [⟨"/w/s", "x", "1", 4, "ok"⟩] "errorcode").getD j 0 ∧ i < j)) ∧
        sorted_pieinfo [⟨"/w/s", "x", "1", 4, "ok"⟩] "errorcode" =
          (pieinfo [⟨"/w/s", "x", "1", 4, "ok"⟩] "errorcode").map (fun info =>
            (slice_order [⟨"/w/s", "x", "1", 4, "ok"⟩] "errorcode").map
              (fun i => info.getD i 0)) ∧
        ∀ i0, (slice_order [⟨"/w/s", "x", "1", 4, "ok"⟩] "errorcode").head? = some i0 →
          ∀ j < (allmapOf [⟨"/w/s", "x", "1", 4, "ok"⟩] "errorcode").length,
            (sum_list [⟨"/w/s", "x", "1", 4, "ok"⟩] "errorcode").getD j 0 ≤
              (sum_list [⟨"/w/s", "x", "1", 4, "ok"⟩] "errorcode").getD i0 0) :=
  ⟨Or.inl rfl,
    C3_pivot_slice_order [⟨"/w/s", "x", "1", 4, "ok"⟩] "errorcode" (Or.inl rfl)⟩

theorem lexLe_refl (l : List Char) : lexLe l l = true := by
  induction l with
  | nil => rfl
  | cons a l ih => simp [lexLe, ih]

theorem strLe_refl (a : String) : strLe a a = true := lexLe_refl a.data

theorem codeLe_refl (a : String) : codeLe a a = true := by
  unfold codeLe
  rcases h : safe_int a with _ | x
  · exact strLe_refl a
  · simp

theorem codeLt_asymm (a b : String) (h : codeLt a b = true) : codeLt b a = false := by
  unfold codeLt at h ⊢
  rcases h1 : codeLe a b <;> rcases h2 : codeLe b a <;> simp [h1, h2] at h ⊢

theorem codeLt_irrefl (a : String) : codeLt a a = false := by
  unfold codeLt
  simp [codeLe_refl]

theorem strLt_asymm (a b : String) (h : strLt a b = true) : strLt b a = false := by
  unfold strLt at h ⊢
  rcases h1 : strLe a b <;> rcases h2 : strLe b a <;> simp [h1, h2] at h ⊢

theorem strLt_irrefl (a : String) : strLt a a = false := by
  unfold strLt
  simp [strLe_refl]

theorem strLt_of_le_ne (a b : String) (hle : strLe a b = true) (hne : a ≠ b) :
    strLt a b = true := by
  unfold strLt
  rcases h2 : strLe b a
  · simp [hle]
  · exact absurd (strLe_antisymm a b hle h2) hne

theorem codeLt_iff (a b : String) :
    codeLt a b = true ↔ codeLe a b = true ∧ codeLe b a = false := by
  unfold codeLt
  rcases h1 : codeLe a b <;> rcases h2 : codeLe b a <;> simp

theorem codeEqv_iff (a b : String) :
    codeEqv a b = true ↔ codeLe a b = true ∧ codeLe b a = true := by
  unfold codeEqv
  rcases h1 : codeLe a b <;> rcases h2 : codeLe b a <;> simp

theorem codeLt_trans (a b c : String) (h1 : codeLt a b = true) (h2 : codeLt b c = true) :
    codeLt a c = true := by
  obtain ⟨hab, hba⟩ := (codeLt_iff a b).mp h1
  obtain ⟨hbc, hcb⟩ := (codeLt_iff b c).mp h2
  refine (codeLt_iff a c).mpr ⟨codeLe_trans a b c hab hbc, ?_⟩
  rcases hca : codeLe c a
  · rfl
  · rw [codeLe_trans c a b hca hab] at hcb
    exact hcb

theorem codeLt_of_lt_of_eqv (a b c : String) (h1 : codeLt a b = true)
    (h2 : codeEqv b c = true) : codeLt a c = true := by
  obtain ⟨hab, hba⟩ := (codeLt_iff a b).mp h1
  obtain ⟨hbc, hcb⟩ := (codeEqv_iff b c).mp h2
  refine (codeLt_iff a c).mpr ⟨codeLe_trans a b c hab hbc, ?_⟩
  rcases hca : codeLe c a
  · rfl
  · rw [codeLe_trans b c a hbc hca] at hba
    exact hba

theorem codeLt_of_eqv_of_lt (a b c : String) (h1 : codeEqv a b = true)
    (h2 : codeLt b c = true) : codeLt a c = true := by
  obtain ⟨hab, hba⟩ := (codeEqv_iff a b).mp h1
  obtain ⟨hbc, hcb⟩ := (codeLt_iff b c).mp h2
  refine (codeLt_iff a c).mpr ⟨codeLe_trans a b c hab hbc, ?_⟩
  rcases hca : codeLe c a
  · rfl
  · rw [codeLe_trans c a b hca hab] at hcb
    exact hcb

theorem codeEqv_trans (a b c : String) (h1 : codeEqv a b = true)
    (h2 : codeEqv b c = true) : codeEqv a c = true := by
  obtain ⟨hab, hba⟩ := (codeEqv_iff a b).mp h1
  obtain ⟨hbc, hcb⟩ := (codeEqv_iff b c).mp h2
  exact (codeEqv_iff a c).mpr ⟨codeLe_trans a b c hab hbc, codeLe_trans c b a hcb hba⟩

theorem codeEqv_symm (a b : String) (h : codeEqv a b = true) : codeEqv b a = true := by
  obtain ⟨hab, hba⟩ := (codeEqv_iff a b).mp h
  exact (codeEqv_iff b a).mpr ⟨hba, hab⟩

theorem scanLe_iff (r1 r2 : Record) :
    scanLe r1 r2 = true ↔ codeLt r1.errorcode r2.errorcode = true ∨
      (codeEqv r1.errorcode r2.errorcode = true ∧ strLe r1.sitename r2.sitename = true) := by
  unfold scanLe
  rcases h1 : codeLt r1.errorcode r2.errorcode <;>
    rcases h2 : codeEqv r1.errorcode r2.errorcode <;>
      rcases h3 : strLe r1.sitename r2.sitename <;> simp

theorem codeLt_or_eqv_total (a b : String) :
    codeLt a b = true ∨ codeLt b a = true ∨ codeEqv a b = true := by
  rcases codeLe_total a b with h | h
  · rcases h2 : codeLe b a
    · exact Or.inl ((codeLt_iff a b).mpr ⟨h, h2⟩)
    · exact Or.inr (Or.inr ((codeEqv_iff a b).mpr ⟨h, h2⟩))
  · rcases h2 : codeLe a b
    · exact Or.inr (Or.inl ((codeLt_iff b a).mpr ⟨h, h2⟩))
    · exact Or.inr (Or.inr ((codeEqv_iff a b).mpr ⟨h2, h⟩))

theorem scanLe_total (r1 r2 : Record) : scanLe r1 r2 = true ∨ scanLe r2 r1 = true := by
  rcases codeLt_or_eqv_total r1.errorcode r2.errorcode with h | h | h
  · exact Or.inl ((scanLe_iff r1 r2).mpr (Or.inl h))
  · exact Or.inr ((scanLe_iff r2 r1).mpr (Or.inl h))
  · rcases strLe_total r1.sitename r2.sitename with hs | hs
    · exact Or.inl ((scanLe_iff r1 r2).mpr (Or.inr ⟨h, hs⟩))
    · exact Or.inr ((scanLe_iff r2 r1).mpr (Or.inr ⟨codeEqv_symm _ _ h, hs⟩))

theorem scanLe_trans (r1 r2 r3 : Record) (h12 : scanLe r1 r2 = true)
    (h23 : scanLe r2 r3 = true) : scanLe r1 r3 = true := by
  rcases (scanLe_iff r1 r2).mp h12 with h1 | ⟨h1, hs1⟩ <;>
    rcases (scanLe_iff r2 r3).mp h23 with h2 | ⟨h2, hs2⟩
  · exact (scanLe_iff r1 r3).mpr (Or.inl (codeLt_trans _ _ _ h1 h2))
  · exact (scanLe_iff r1 r3).mpr (Or.inl (codeLt_of_lt_of_eqv _ _ _ h1 h2))
  · exact (scanLe_iff r1 r3).mpr (Or.inl (codeLt_of_eqv_of_lt _ _ _ h1 h2))
  · exact (scanLe_iff r1 r3).mpr (Or.inr ⟨codeEqv_trans _ _ _ h1 h2,
      strLe_trans _ _ _ hs1 hs2⟩)

theorem mergeFlat_sentinel (cells : List (String × String)) :
    ((mergeFlat cells ((0, "", ""), [])).1).sum = 0 := by
  induction cells with
  | nil => rfl
  | cons c cells ih =>
    simp only [mergeFlat, mergeCell]
    split
    · simpa [popHead] using ih
    · simpa using ih

theorem mergeFlat_covers (cells : List (String × String)) (ls : List SparseEntry)
    (hc : Covers cells ls) :
    ((mergeFlat cells (popHead ls)).1).sum = (ls.map (fun x => x.1)).sum := by
  induction hc with
  | nil cells =>
    simp only [popHead, List.map_nil, List.sum_nil]
    exact mergeFlat_sentinel cells
  | skip c cells e es hne hcov ih =>
    have hcell : mergeCell c.1 c.2 (e, es) = (0, (e, es)) := by
      unfold mergeCell
      rw [if_neg]
      intro ⟨h1, h2⟩
      exact hne (by rw [← h1, ← h2])
    have ih' : ((mergeFlat cells (e, es)).1).sum = ((e :: es).map (fun x => x.1)).sum := ih
    show ((mergeFlat (c :: cells) (e, es)).1).sum = ((e :: es).map (fun x => x.1)).sum
    simp only [mergeFlat, hcell, List.sum_cons]
    simpa using ih'
  | hit cells e es hcov ih =>
    have hcell : mergeCell (e.2.2, e.2.1).1 (e.2.2, e.2.1).2 (e, es) = (e.1, popHead es) := by
      unfold mergeCell
      rw [if_pos ⟨rfl, rfl⟩]
    show ((mergeFlat ((e.2.2, e.2.1) :: cells) (e, es)).1).sum =
      ((e :: es).map (fun x => x.1)).sum
    simp only [mergeFlat, hcell, List.sum_cons, List.map_cons]
    rw [ih]

theorem mergeRow_eq_flat (sites : List String) (error : String)
    (st : SparseEntry × List SparseEntry) :
    mergeRow error sites st = mergeFlat (sites.map (fun s => (error, s))) st := by
  induction sites generalizing st with
  | nil => rfl
  | cons s sites ih =>
    simp only [mergeRow, List.map_cons, mergeFlat, ih]

theorem mergeFlat_append (c1 c2 : List (String × String))
    (st : SparseEntry × List SparseEntry) :
    mergeFlat (c1 ++ c2) st =
      ((mergeFlat c1 st).1 ++ (mergeFlat c2 (mergeFlat c1 st).2).1,
        (mergeFlat c2 (mergeFlat c1 st).2).2) := by
  induction c1 generalizing st with
  | nil => simp [mergeFlat]
  | cons c c1 ih =>
    show mergeFlat (c :: (c1 ++ c2)) st = _
    simp only [mergeFlat]
    rw [ih]
    simp [mergeFlat]

theorem mergeTable_eq_flat (codes : List String) (sites : List String)
    (st : SparseEntry × List SparseEntry) :
    sumTable (mergeTable codes sites st).1 = ((mergeFlat (gridCells codes sites) st).1).sum ∧
      (mergeTable codes sites st).2 = (mergeFlat (gridCells codes sites) st).2 := by
  induction codes generalizing st with
  | nil => simp [mergeTable, gridCells, mergeFlat, sumTable]
  | cons c cs ih =>
    have hgrid : gridCells (c :: cs) sites =
        (sites.map (fun s => (c, s))) ++ gridCells cs sites := by
      simp [gridCells]
    simp only [mergeTable, hgrid, mergeFlat_append, ← mergeRow_eq_flat]
    constructor
    · rw [sumTable, List.map_cons, List.sum_cons, List.sum_append, ← sumTable]
      rw [(ih (mergeRow c sites st).2).1]
    · exact (ih (mergeRow c sites st).2).2

theorem covers_prepend (pre cells : List (String × String)) (es : List SparseEntry)
    (hne : ∀ c ∈ pre, ∀ e ∈ es, c ≠ (e.2.2, e.2.1)) (hc : Covers cells es) :
    Covers (pre ++ cells) es := by
  induction pre with
  | nil => exact hc
  | cons c pre ih =>
    cases es with
    | nil => exact Covers.nil _
    | cons e es2 =>
      exact Covers.skip c (pre ++ cells) e es2
        (hne c (List.mem_cons_self c pre) e (List.mem_cons_self e es2))
        (ih (fun c' hc' e' he' => hne c' (List.mem_cons_of_mem c hc') e' he'))

theorem covers_append (cellsA cellsB : List (String × String)) (esA esB : List SparseEntry)
    (hA : Covers cellsA esA) (hB : Covers cellsB esB)
    (hne : ∀ c ∈ cellsA, ∀ e ∈ esB, c ≠ (e.2.2, e.2.1)) :
    Covers (cellsA ++ cellsB) (esA ++ esB) := by
  induction hA with
  | nil cells => exact covers_prepend cells cellsB esB hne hB
  | skip c cells e es hskip hcov ih =>
    exact Covers.skip c (cells ++ cellsB) e (es ++ esB) hskip
      (ih (fun c' hc' => hne c' (List.mem_cons_of_mem c hc')))
  | hit cells e es hcov ih =>
    exact Covers.hit (cells ++ cellsB) e (es ++ esB)
      (ih (fun c' hc' => hne c' (List.mem_cons_of_mem _ hc')))

theorem covers_row (sites : List String) (c : String) (es : List SparseEntry)
    (hsites : sites.Pairwise (fun a b => strLt a b = true))
    (hcode : ∀ e ∈ es, e.2.2 = c)
    (hmem : ∀ e ∈ es, e.2.1 ∈ sites)
    (hsorted : es.Pairwise (fun e1 e2 => strLt e1.2.1 e2.2.1 = true)) :
    Covers (sites.map (fun s => (c, s))) es := by
  induction sites generalizing es with
  | nil =>
    cases es with
    | nil => exact Covers.nil _
    | cons e es2 => exact absurd (hmem e (List.mem_cons_self e es2)) (List.not_mem_nil _)
  | cons s sites ih =>
    cases es with
    | nil => exact Covers.nil _
    | cons e es2 =>
      have hec : e.2.2 = c := hcode e (List.mem_cons_self e es2)
      obtain ⟨hsfirst, hstail⟩ := List.pairwise_cons.mp hsites
      obtain ⟨hefirst, hetail⟩ := List.pairwise_cons.mp hsorted
      by_cases hs : e.2.1 = s
      · have hcell : ((c, s) : String × String) = (e.2.2, e.2.1) := by rw [hec, hs]
        rw [List.map_cons, hcell]
        refine Covers.hit _ e es2 (ih es2 hstail
          (fun e' he' => hcode e' (List.mem_cons_of_mem e he'))
          (fun e' he' => ?_) hetail)
        have hmem' : e'.2.1 ∈ s :: sites := hmem e' (List.mem_cons_of_mem e he')
        rcases List.mem_cons.mp hmem' with h | h
        · exfalso
          have := hefirst e' he'
          rw [hs, h] at this
          rw [strLt_irrefl s] at this
          exact absurd this (by simp)
        · exact h
      · rw [List.map_cons]
        refine Covers.skip (c, s) _ e es2
          (fun h => hs (congrArg Prod.snd h).symm) ?_
        refine ih (e :: es2) hstail hcode (fun e' he' => ?_) hsorted
        rcases List.mem_cons.mp he' with he2 | he2
        · subst he2
          rcases List.mem_cons.mp (hmem e' (List.mem_cons_self e' es2)) with h | h
          · exact absurd h hs
          · exact h
        · have hmem' : e'.2.1 ∈ s :: sites := hmem e' (List.mem_cons_of_mem e he2)
          rcases List.mem_cons.mp hmem' with h | h
          · exfalso
            have hes : e.2.1 ∈ sites := by
              rcases List.mem_cons.mp (hmem e (List.mem_cons_self e es2)) with h2 | h2
              · exact absurd h2 hs
              · exact h2
            have h1 : strLt e.2.1 e'.2.1 = true := hefirst e' he2
            have h2 : strLt s e.2.1 = true := hsfirst e.2.1 hes
            rw [h] at h1
            rw [strLt_asymm s e.2.1 h2] at h1
            exact absurd h1 (by simp)
          · exact h

theorem span_code (c : String) (cs : List String) (es : List SparseEntry)
    (hes : es.Pairwise entryLt)
    (hmem : ∀ e ∈ es, e.2.2 = c ∨ e.2.2 ∈ cs)
    (hcs : ∀ c' ∈ cs, codeLt c c' = true) :
    ∃ es1 es2, es = es1 ++ es2 ∧ (∀ e ∈ es1, e.2.2 = c) ∧
      (∀ e ∈ es2, e.2.2 ≠ c ∧ e.2.2 ∈ cs) ∧
      es1.Pairwise entryLt ∧ es2.Pairwise entryLt := by
  induction es with
  | nil => exact ⟨[], [], rfl, by simp, by simp, List.Pairwise.nil, List.Pairwise.nil⟩
  | cons e es ih =>
    obtain ⟨hef, het⟩ := List.pairwise_cons.mp hes
    by_cases hc : e.2.2 = c
    · obtain ⟨es1, es2, heq, h1, h2, hp1, hp2⟩ :=
        ih het (fun x hx => hmem x (List.mem_cons_of_mem e hx))
      refine ⟨e :: es1, es2, by rw [heq, List.cons_append], ?_, h2, ?_, hp2⟩
      · intro x hx
        rcases List.mem_cons.mp hx with h | h
        · rw [h]; exact hc
        · exact h1 x h
      · refine List.Pairwise.cons (fun x hx => ?_) hp1
        refine hef x ?_
        rw [heq]
        exact List.mem_append_left es2 hx
    · refine ⟨[], e :: es, rfl, by simp, ?_, List.Pairwise.nil, hes⟩
      intro x hx
      rcases List.mem_cons.mp hx with h | h
      · subst h
        exact ⟨hc, (hmem x (List.mem_cons_self x es)).resolve_left hc⟩
      · have hxmem := hmem x (List.mem_cons_of_mem e h)
        have hxne : x.2.2 ≠ c := by
          intro hxc
          rcases hef x h with hlt | ⟨heqc, _⟩
          · have hecs : e.2.2 ∈ cs := (hmem e (List.mem_cons_self e es)).resolve_left hc
            have h2 : codeLt c e.2.2 = true := hcs e.2.2 hecs
            rw [hxc] at hlt
            rw [codeLt_asymm c e.2.2 h2] at hlt
            exact absurd hlt (by simp)
          · exact hc (heqc.trans hxc)
        exact ⟨hxne, hxmem.resolve_left hxne⟩

theorem covers_grid (codes sites : List String) (es : List SparseEntry)
    (hcodes : codes.Pairwise (fun a b => codeLt a b = true))
    (hsites : sites.Pairwise (fun a b => strLt a b = true))
    (hes : es.Pairwise entryLt)
    (hmemc : ∀ e ∈ es, e.2.2 ∈ codes)
    (hmems : ∀ e ∈ es, e.2.1 ∈ sites) :
    Covers (gridCells codes sites) es := by
  induction codes generalizing es with
  | nil =>
    cases es with
    | nil => exact Covers.nil _
    | cons e es2 => exact absurd (hmemc e (List.mem_cons_self e es2)) (List.not_mem_nil _)
  | cons c cs ih =>
    obtain ⟨hcfirst, hctail⟩ := List.pairwise_cons.mp hcodes
    obtain ⟨es1, es2, heq, h1, h2, hp1, hp2⟩ := span_code c cs es hes
      (fun e he => List.mem_cons.mp (hmemc e he)) hcfirst
    subst heq
    have hgrid : gridCells (c :: cs) sites =
        (sites.map (fun s => (c, s))) ++ gridCells cs sites := by
      simp [gridCells]
    rw [hgrid]
    refine covers_append _ _ es1 es2 ?_ ?_ ?_
    · refine covers_row sites c es1 hsites h1
        (fun e he => hmems e (List.mem_append_left es2 he)) ?_
      refine hp1.imp_of_mem (fun {a b} ha hb hr => ?_)
      rcases hr with hlt | ⟨_, hslt⟩
      · exfalso
        rw [h1 a ha, h1 b hb, codeLt_irrefl c] at hlt
        exact absurd hlt (by simp)
      · exact hslt
    · exact ih es2 hctail hp2 (fun e he => (h2 e he).2)
        (fun e he => hmems e (List.mem_append_right es1 he))
    · intro cl hcl e he
      obtain ⟨s, hs, hcl2⟩ := List.mem_map.mp hcl
      intro heq2
      rw [← hcl2] at heq2
      exact (h2 e he).1 (congrArg Prod.fst heq2).symm

theorem bucket_flat (l : List Record) (step key : String)
    (hall : ∀ r ∈ l, r.sitereadiness ≠ "all") :
    (l.flatMap (fun r =>
      if r.stepname = step then
        (if key = "all" then [scanRow r] else []) ++
          (if r.sitereadiness = key then [scanRow r] else [])
      else [])) =
      (l.filter (fun r => decide (r.stepname = step) &&
        (decide (key = "all") || decide (r.sitereadiness = key)))).map scanRow := by
  induction l with
  | nil => rfl
  | cons r l ih =>
    have hr : r.sitereadiness ≠ "all" := hall r (List.mem_cons_self r l)
    have ih' := ih (fun x hx => hall x (List.mem_cons_of_mem r hx))
    simp only [List.flatMap_cons, List.filter_cons, ih']
    by_cases h1 : r.stepname = step
    · by_cases h2 : key = "all"
      · have h3 : r.sitereadiness ≠ key := fun h => hr (h2 ▸ h)
        simp [h1, h2, h3, hr]
      · by_cases h3 : r.sitereadiness = key
        · simp [h1, h2, h3]
        · simp [h1, h2, h3]
    · simp [h1]

theorem bucket_eq (store : List Record) (step key : String)
    (hall : ∀ r ∈ store, r.sitereadiness ≠ "all") :
    stepTablesBucket store step key =
      ((sortedScan store).filter (fun r => decide (r.stepname = step) &&
        (decide (key = "all") || decide (r.sitereadiness = key)))).map scanRow := by
  unfold stepTablesBucket
  exact bucket_flat (sortedScan store) step key
    (fun r hr => hall r ((sortLe_perm scanLe store).mem_iff.mp hr))

theorem mem_sort_distinct_of_mem (le : String → String → Bool) (l : List String) (x : String)
    (hx : x ∈ l) : x ∈ sortLe le (distinctVals l) :=
  (sortLe_perm le (distinctVals l)).mem_iff.mpr
    (mem_firstDedupAux l [] x hx (List.not_mem_nil x))

theorem mem_of_mem_sort_distinct (le : String → String → Bool) (l : List String) (x : String)
    (hx : x ∈ sortLe le (distinctVals l)) : x ∈ l :=
  mem_of_mem_firstDedupAux l [] x ((sortLe_perm le (distinctVals l)).mem_iff.mp hx)

theorem nodup_sort_distinct (le : String → String → Bool) (l : List String) :
    (sortLe le (distinctVals l)).Nodup :=
  (sortLe_perm le (distinctVals l)).nodup_iff.mpr (nodup_firstDedupAux l [])

theorem allerrors_pairwise_lt (store : List Record) (hkey : KeyInj store) :
    (allerrors store).Pairwise (fun a b => codeLt a b = true) := by
  have hle : (allerrors store).Pairwise (fun a b => codeLe a b = true) :=
    pairwise_sortLe codeLe codeLe_total codeLe_trans _
  have hnd : (allerrors store).Nodup := nodup_sort_distinct codeLe _
  refine (hle.and hnd).imp_of_mem (fun {a b} ha hb h => ?_)
  obtain ⟨hab, hne⟩ := h
  obtain ⟨r1, hr1, hr1e⟩ := List.mem_map.mp (mem_of_mem_sort_distinct codeLe _ a ha)
  obtain ⟨r2, hr2, hr2e⟩ := List.mem_map.mp (mem_of_mem_sort_distinct codeLe _ b hb)
  rcases hba : codeLe b a
  · exact (codeLt_iff a b).mpr ⟨hab, hba⟩
  · exfalso
    apply hne
    rw [← hr1e, ← hr2e]
    refine hkey r1 hr1 r2 hr2 ?_
    rw [hr1e, hr2e]
    exact (codeEqv_iff a b).mpr ⟨hab, hba⟩

theorem allsites_pairwise_lt (store : List Record) :
    (allsites store).Pairwise (fun a b => strLt a b = true) := by
  have hle : (allsites store).Pairwise (fun a b => strLe a b = true) :=
    pairwise_sortLe strLe strLe_total strLe_trans _
  have hnd : (allsites store).Nodup := nodup_sort_distinct strLe _
  exact (hle.and hnd).imp (fun {a b} h => strLt_of_le_ne a b h.1 h.2)

theorem entries_pairwise (store : List Record) (p : Record → Bool) (step : String)
    (hp : ∀ r, p r = true → r.stepname = step)
    (hnd : TriplesNodup store) (hkey : KeyInj store) :
    (((sortedScan store).filter p).map scanRow).Pairwise entryLt := by
  have hperm := sortLe_perm scanLe store
  have hscan : (sortedScan store).Pairwise (fun r1 r2 => scanLe r1 r2 = true) :=
    pairwise_sortLe scanLe scanLe_total scanLe_trans store
  have hfil : ((sortedScan store).filter p).Pairwise (fun r1 r2 => scanLe r1 r2 = true) :=
    hscan.sublist (List.filter_sublist _)
  have htnd : (((sortedScan store).filter p).map tripleOf).Nodup :=
    ((hperm.map tripleOf).nodup_iff.mpr hnd).sublist ((List.filter_sublist _).map tripleOf)
  have htriple : ((sortedScan store).filter p).Pairwise
      (fun r1 r2 => tripleOf r1 ≠ tripleOf r2) := List.pairwise_map.mp htnd
  refine List.pairwise_map.mpr ((hfil.and htriple).imp_of_mem (fun {r1 r2} h1 h2 h => ?_))
  obtain ⟨hle, hne⟩ := h
  have hstep1 : r1.stepname = step := hp r1 (List.of_mem_filter h1)
  have hstep2 : r2.stepname = step := hp r2 (List.of_mem_filter h2)
  rcases (scanLe_iff r1 r2).mp hle with hlt | hrest
  · exact Or.inl hlt
  · obtain ⟨heqv, hsle⟩ := hrest
    have hr1 : r1 ∈ store := hperm.mem_iff.mp ((List.filter_sublist _).subset h1)
    have hr2 : r2 ∈ store := hperm.mem_iff.mp ((List.filter_sublist _).subset h2)
    have hceq : r1.errorcode = r2.errorcode := hkey r1 hr1 r2 hr2 heqv
    have hsne : r1.sitename ≠ r2.sitename := by
      intro hseq
      apply hne
      unfold tripleOf
      rw [hstep1, hstep2, hceq, hseq]
    exact Or.inr ⟨hceq, strLt_of_le_ne _ _ hsle hsne⟩

theorem step_table_key_sum (store : List Record) (step key : String)
    (hnd : TriplesNodup store) (hkey : KeyInj store)
    (hall : ∀ r ∈ store, r.sitereadiness ≠ "all") :
    sumTable (mergeTable (allerrors store) (allsites store)
      (popHead (stepTablesBucket store step key))).1 =
      (((sortedScan store).filter (fun r => decide (r.stepname = step) &&
        (decide (key = "all") || decide (r.sitereadiness = key)))).map
          (fun r => r.numbererrors)).sum := by
  have hp : ∀ r : Record, (decide (r.stepname = step) &&
      (decide (key = "all") || decide (r.sitereadiness = key))) = true →
      r.stepname = step := by
    intro r h
    rw [Bool.and_eq_true] at h
    exact of_decide_eq_true h.1
  have hcov : Covers (gridCells (allerrors store) (allsites store))
      (((sortedScan store).filter (fun r => decide (r.stepname = step) &&
        (decide (key = "all") || decide (r.sitereadiness = key)))).map scanRow) := by
    refine covers_grid _ _ _ (allerrors_pairwise_lt store hkey) (allsites_pairwise_lt store)
      (entries_pairwise store _ step hp hnd hkey) ?_ ?_
    · intro e he
      obtain ⟨r, hr, hre⟩ := List.mem_map.mp he
      have hrs : r ∈ store :=
        (sortLe_perm scanLe store).mem_iff.mp ((List.filter_sublist _).subset hr)
      rw [← hre]
      exact mem_sort_distinct_of_mem codeLe _ r.errorcode
        (List.mem_map_of_mem (fun r => r.errorcode) hrs)
    · intro e he
      obtain ⟨r, hr, hre⟩ := List.mem_map.mp he
      have hrs : r ∈ store :=
        (sortLe_perm scanLe store).mem_iff.mp ((List.filter_sublist _).subset hr)
      rw [← hre]
      exact mem_sort_distinct_of_mem strLe _ r.sitename
        (List.mem_map_of_mem (fun r => r.sitename) hrs)
  rw [bucket_eq store step key hall]
  rw [(mergeTable_eq_flat (allerrors store) (allsites store) _).1]
  rw [mergeFlat_covers _ _ hcov]
  rw [List.map_map]
  rfl

theorem info_table_none (store : List Record) (step : String) :
    ErrorInfo_get_step_table store step none = stepTablesBucket store step "all" := by
  simp [ErrorInfo_get_step_table]

theorem info_table_some_nil (store : List Record) (step : String) :
    ErrorInfo_get_step_table store step (some []) = stepTablesBucket store step "all" := by
  simp [ErrorInfo_get_step_table]

theorem info_table_some_one (store : List Record) (step k : String) :
    ErrorInfo_get_step_table store step (some [k]) = stepTablesBucket store step k := by
  simp [ErrorInfo_get_step_table]

/-- Claim C1 counterexample: with the two records
`("s", "x", "1", 5, "b")` and `("s", "x", "2", 7, "a")` and the
multi-element readiness filter `["a", "b"]`, the concatenation of the
per-readiness buckets is `[(7, x, 2), (5, x, 1)]` — no longer ordered by
`(errorcode, sitename)` — so the merge drops the entry for code `"1"`:
the dense table sums to 7 while the matching records sum to 12. -/
theorem C1_step_table_sum_cex :
    sumTable (get_step_table
        [⟨"s", "x", "1", 5, "b"⟩, ⟨"s", "x", "2", 7, "a"⟩]
        (allerrors [⟨"s", "x", "1", 5, "b"⟩, ⟨"s", "x", "2", 7, "a"⟩])
        (allsites [⟨"s", "x", "1", 5, "b"⟩, ⟨"s", "x", "2", 7, "a"⟩])
        "s" (some ["a", "b"])) = 7 ∧
      ((([⟨"s", "x", "1", 5, "b"⟩, ⟨"s", "x", "2", 7, "a"⟩] : List Record).filter
        (fun r => decide (r.stepname = "s") && matchesReady (some ["a", "b"]) r)).map
          (fun r => r.numbererrors)).sum = 12 := by decide

/-- Claim C1 (amended): the dense-table cell sum of
`get_step_table(step, ..., readymatch, sparse=False)` equals the sum of
the error counts of the records matching the step and the readiness
filter, for a filter that is absent (or empty, both meaning all records)
or names a single readiness status, on a store satisfying the invariants:
unique `(step, site, errorcode)` triples, no readiness status equal to
the literal bucket key `"all"`, and no two distinct codes sharing a
`safe_int` key.  (For multi-element filters the concatenated buckets can
violate the merge's ordering assumption and entries are dropped, see the
counterexample.) -/
theorem C1_step_table_sum_amended (store : List Record) (step : String)
    (readymatch : Option (List String))
    (hnd : TriplesNodup store) (hkey : KeyInj store)
    (hall : ∀ r ∈ store, r.sitereadiness ≠ "all")
    (hlen : (readymatch.getD []).length ≤ 1)
    (hnotall : "all" ∉ readymatch.getD []) :
    sumTable (get_step_table store (allerrors store) (allsites store) step readymatch) =
      ((store.filter (fun r => decide (r.stepname = step) && matchesReady readymatch r)).map
        (fun r => r.numbererrors)).sum := by
  have hperm : (sortedScan store).Perm store := sortLe_perm scanLe store
  match readymatch with
  | none =>
    show sumTable (mergeTable _ _ (popHead (ErrorInfo_get_step_table store step none))).1 = _
    rw [info_table_none, step_table_key_sum store step "all" hnd hkey hall]
    rw [((hperm.filter _).map (fun r => r.numbererrors)).sum_eq]
    congr 1
  | some [] =>
    show sumTable (mergeTable _ _ (popHead (ErrorInfo_get_step_table store step (some [])))).1 = _
    rw [info_table_some_nil, step_table_key_sum store step "all" hnd hkey hall]
    rw [((hperm.filter _).map (fun r => r.numbererrors)).sum_eq]
    congr 1
  | some [k] =>
    have hk : k ≠ "all" := by
      intro hk
      exact hnotall (by simp [hk])
    show sumTable (mergeTable _ _ (popHead (ErrorInfo_get_step_table store step (some [k])))).1 = _
    rw [info_table_some_one, step_table_key_sum store step k hnd hkey hall]
    rw [((hperm.filter _).map (fun r => r.numbererrors)).sum_eq]
    congr 1
    refine congrArg _ (List.filter_congr (fun r _ => ?_))
    have hk' : ¬(k = "all") := hk
    simp [matchesReady, hk']
  | some (a :: b :: t) =>
    exfalso
    simp at hlen

theorem C1_step_table_sum_amended_witness :
    (TriplesNodup [⟨"s", "x", "1", 5, "b"⟩, ⟨"s", "y", "2", 7, "a"⟩] ∧
        KeyInj [⟨"s", "x", "1", 5, "b"⟩, ⟨"s", "y", "2", 7, "a"⟩] ∧
        (∀ r ∈ ([⟨"s", "x", "1", 5, "b"⟩, ⟨"s", "y", "2", 7, "a"⟩] : List Record),
          r.sitereadiness ≠ "all") ∧
        ((some ["a"] : Option (List String)).getD []).length ≤ 1 ∧
        "all" ∉ (some ["a"] : Option (List String)).getD []) ∧
      sumTable (get_step_table [⟨"s", "x", "1", 5, "b"⟩, ⟨"s", "y", "2", 7, "a"⟩]
          (allerrors [⟨"s", "x", "1", 5, "b"⟩, ⟨"s", "y", "2", 7, "a"⟩])
          (allsites [⟨"s", "x", "1", 5, "b"⟩, ⟨"s", "y", "2", 7, "a"⟩])
          "s" (some ["a"])) =
        ((([⟨"s", "x", "1", 5, "b"⟩, ⟨"s", "y", "2", 7, "a"⟩] : List Record).filter
          (fun r => decide (r.stepname = "s") && matchesReady (some ["a"]) r)).map
            (fun r => r.numbererrors)).sum :=
  ⟨⟨by unfold TriplesNodup; decide, by unfold KeyInj; decide, by decide, by decide, by decide⟩,
    C1_step_table_sum_amended [⟨"s", "x", "1", 5, "b"⟩, ⟨"s", "y", "2", 7, "a"⟩] "s"
      (some ["a"]) (by unfold TriplesNodup; decide) (by unfold KeyInj; decide)
      (by decide) (by decide) (by decide)⟩
